import Mathlib

/- Formal model of src/record_l3.py (Kraken L3 WebSocket recorder).
   Pure fragments of the script are translated directly; the behaviour of the
   Python standard library calls the script makes (json, str.rstrip, int,
   asyncio.sleep, os.path.getsize, time.time) is modelled explicitly where the
   claims depend on it, with comments citing the source lines. -/

/- ------------------------------------------------------------------ -/

/- Backoff constants and update rules (record_l3.py lines 45-47, 220-272) -/

/- ------------------------------------------------------------------ -/

/-- Constant BACKOFF_INIT = 1.0 (line 45). Exact rational model of the float. -/

def BACKOFF_INIT : ℚ := 1

/-- Constant BACKOFF_MAX = 60.0 (line 46). -/

def BACKOFF_MAX : ℚ := 60

/-- Constant BACKOFF_MULT = 2.0 (line 47). -/

def BACKOFF_MULT : ℚ := 2

/-- Delay slept on a failed attempt: delay = min(backoff, BACKOFF_MAX) (line 268). -/

def backoffDelay (b : ℚ) : ℚ := min b BACKOFF_MAX

/-- Backoff update after the sleep: backoff = min(backoff * BACKOFF_MULT, BACKOFF_MAX)
(line 271). -/

def backoffNext (b : ℚ) : ℚ := min (b * BACKOFF_MULT) BACKOFF_MAX

/-- Events seen by the backoff variable of Recorder.run: a failed or interrupted
connection attempt (the except/finally path reaching lines 268-271), or a
successful subscribe (line 255, backoff = BACKOFF_INIT). -/

inductive RunEvent
  | fail
  | success
deriving DecidableEq, Repr

/-- Effect of one event on the backoff variable, returning the new backoff value
and the delay slept, if any (lines 255 and 268-271 of Recorder.run). -/

def runBackoff (b : ℚ) : RunEvent → ℚ × Option ℚ
  | RunEvent.fail => (backoffNext b, some (backoffDelay b))
  | RunEvent.success => (BACKOFF_INIT, none)

/-- Sequence of delays slept along a sequence of events, starting from backoff
value b (folding runBackoff over the trace of Recorder.run). -/

def runDelays : ℚ → List RunEvent → List ℚ
  | _, [] => []
  | b, e :: es =>
    match runBackoff b e with
    | (b2, some d) => d :: runDelays b2 es
    | (b2, none) => runDelays b2 es

/- ------------------------------------------------------------------ -/

/- Shutdown during the backoff sleep (lines 266-272, 306-315)          -/

/- ------------------------------------------------------------------ -/

/-- Phase of the bottom of the Recorder.run loop, at millisecond granularity:
sleeping in asyncio.sleep(delay) with some milliseconds remaining (line 270),
about to test the while condition (line 222), or past the loop at self.close()
(line 272). -/

inductive LoopPhase
  | sleepingMs (remaining : Nat)
  | loopCheck
  | closed
deriving DecidableEq, Repr

/-- State of the run loop bottom: its phase plus the self._shutdown flag, which
the signal handler sets asynchronously (line 307). -/

structure LoopState where
  phase : LoopPhase
  shutdown : Bool
deriving DecidableEq, Repr

/-- One millisecond of execution of the bottom of Recorder.run. The sleep at
line 270 is a plain asyncio.sleep(delay): the signal handler (lines 306-309)
only sets self._shutdown and closes self._ws (which is None during backoff,
line 265); it never cancels the sleeping task, so the sleep keeps running for
its full duration regardless of the shutdown flag. The flag is only consulted
at the while condition (line 222) once the sleep has returned. -/

def loopTick (s : LoopState) : LoopState :=
  match s.phase with
  | LoopPhase.sleepingMs (r + 1) => { s with phase := LoopPhase.sleepingMs r }
  | LoopPhase.sleepingMs 0 =>
      if s.shutdown then { s with phase := LoopPhase.closed }
      else { s with phase := LoopPhase.loopCheck }
  | LoopPhase.loopCheck =>
      if s.shutdown then { s with phase := LoopPhase.closed } else s
  | LoopPhase.closed => s

/- ------------------------------------------------------------------ -/

/- Nonce construction (get_websockets_token, line 105)                 -/

/- ------------------------------------------------------------------ -/

/-- Model of line 105: nonce = str(int(time.time() * 1000)). time.time() is the
wall clock in seconds, modelled as a nonnegative rational t; int() truncation
on a nonnegative value is the floor. No state is kept between calls: the nonce
is a pure function of the clock reading. -/

def kraken_nonce (t : ℚ) : ℤ := Int.floor (t * 1000)

/- ------------------------------------------------------------------ -/

/- Character helpers shared by the config / sink / JSON models         -/

/- ------------------------------------------------------------------ -/

/-- Decimal digit test on a character (ASCII 48-57). -/

def isDigitCh (c : Char) : Bool := 48 ≤ c.toNat && c.toNat ≤ 57

/-- Value of a decimal digit character. -/

def digitValCh (c : Char) : Nat := c.toNat - 48

/-- Model of Python str.isspace on the ASCII range (space, tab, newline,
carriage return, vertical tab, form feed): the character class stripped by
str.strip inside int() and by str.rstrip at line 205. -/

def isPySpace (c : Char) : Bool :=
  c = ' ' || c = '\t' || c = '\n' || c = '\r' || c = Char.ofNat 11 || c = Char.ofNat 12

/-- Model of str.strip with no argument: remove leading and trailing
whitespace. -/

def pyStrip (s : List Char) : List Char :=
  ((s.dropWhile (fun c => isPySpace c)).reverse.dropWhile (fun c => isPySpace c)).reverse

/-- Model of str.rstrip with no argument (line 205): remove trailing
whitespace only. -/

def pyRstrip (s : List Char) : List Char :=
  (s.reverse.dropWhile (fun c => isPySpace c)).reverse

/- ------------------------------------------------------------------ -/

/- Model of Python int(str) used at load_config line 77                -/

/- ------------------------------------------------------------------ -/

/-- Digits of a Python int literal after the first digit: a run of decimal
digits in which a single underscore may appear between two digits. -/

def pyDigitsRest (acc : Nat) : List Char → Option Nat
  | [] => some acc
  | '_' :: c :: rest =>
      if isDigitCh c then pyDigitsRest (acc * 10 + digitValCh c) rest else none
  | ['_'] => none
  | c :: rest =>
      if isDigitCh c then pyDigitsRest (acc * 10 + digitValCh c) rest else none

/-- Model of Python int(str) on ASCII input: optional surrounding whitespace,
optional sign, then decimal digits with optional single underscores between
digits; any other shape raises ValueError, modelled as none. -/

def pyIntOfString (s : List Char) : Option Int :=
  match pyStrip s with
  | '+' :: c :: rest =>
      if isDigitCh c then (pyDigitsRest (digitValCh c) rest).map (fun n => (n : Int)) else none
  | '-' :: c :: rest =>
      if isDigitCh c then (pyDigitsRest (digitValCh c) rest).map (fun n => -(n : Int)) else none
  | c :: rest =>
      if isDigitCh c then (pyDigitsRest (digitValCh c) rest).map (fun n => (n : Int)) else none
  | [] => none

/-- Model of load_config lines 74-79: with the KRAKEN_L3_MAX_FILE_SIZE_MB
variable unset the configured value stands; when it is set, int() is tried and
a ValueError is silently swallowed (pass), keeping the configured value, while
a successful parse overrides it. Loading never fails. -/

def load_config_max_file_size (base : Option Int) (env : Option (List Char)) : Option Int :=
  match env with
  | none => base
  | some s =>
    match pyIntOfString s with
    | some n => some n
    | none => base

/- ------------------------------------------------------------------ -/

/- Model of main startup and the credentials check in Recorder.run     -/

/- ------------------------------------------------------------------ -/

/-- Python truthiness of an optional string: None and the empty string are both
falsy; the checks at lines 224 and 287 use this via `not config.get(...)` and
`not self._api_key`. -/

def truthyStr : Option (List Char) → Bool
  | none => false
  | some s => !s.isEmpty

/-- Configuration values consumed by main (lines 276-300). -/

structure AppConfig where
  symbols : List (List Char)
  depth : Int
  api_key : Option (List Char)
  api_secret : Option (List Char)
deriving DecidableEq, Repr

/-- Outcome of the startup checks in main. -/

inductive StartupResult
  | exitConfigError
  | proceed (warnedMissingCreds : Bool)
deriving DecidableEq, Repr

/-- Model of main, lines 275-301: sys.exit(1) for an empty symbol list or an
invalid depth; a missing (or empty) key or secret only prints a warning and
proceeds to construct the Recorder and run it. -/

def main_startup (c : AppConfig) : StartupResult :=
  if c.symbols = [] then StartupResult.exitConfigError
  else if c.depth = 10 ∨ c.depth = 100 ∨ c.depth = 1000 then
    StartupResult.proceed (!(truthyStr c.api_key && truthyStr c.api_secret))
  else StartupResult.exitConfigError

/-- What the top of one Recorder.run loop iteration decides to do. -/

inductive RunAction
  | exitLoop
  | sleepRetry (delay : ℚ)
  | attemptConnect
deriving DecidableEq, Repr

/-- Model of lines 222-232 of Recorder.run: the while condition, then the
credentials check. Missing credentials print an error, sleep
min(backoff, BACKOFF_MAX) and continue the loop; otherwise the iteration
proceeds to the token fetch and connection attempt. -/

def run_iter_start (shutdown : Bool) (api_key api_secret : Option (List Char))
    (backoff : ℚ) : RunAction :=
  if shutdown then RunAction.exitLoop
  else if !(truthyStr api_key && truthyStr api_secret) then
    RunAction.sleepRetry (min backoff BACKOFF_MAX)
  else RunAction.attemptConnect

/- ------------------------------------------------------------------ -/

/- Decimal numerals (str(n) / format n:04d), shared by paths and JSON  -/

/- ------------------------------------------------------------------ -/

/-- Helper for natChars: digits of n most significant first, with fuel. -/

def natCharsAux : Nat → Nat → List Char
  | 0, _ => []
  | fuel + 1, n =>
      if n = 0 then [] else natCharsAux fuel (n / 10) ++ [Nat.digitChar (n % 10)]

/-- Decimal representation of a natural number, most significant digit first:
the model of Python str on a nonnegative int. -/

def natChars (n : Nat) : List Char :=
  if n = 0 then ['0'] else natCharsAux n n

/-- Model of the format spec 04d (line 167): left-pad the decimal digits with
zeros to at least four characters. -/

def pad4Chars (n : Nat) : List Char :=
  List.replicate (4 - (natChars n).length) '0' ++ natChars n

/-- Numeric value of a list of decimal digit characters, most significant
first, with accumulator. -/

def charsValAux (a : Nat) : List Char → Nat
  | [] => a
  | c :: rest => charsValAux (a * 10 + digitValCh c) rest

/- ------------------------------------------------------------------ -/

/- File naming (Recorder._next_path_for_date, lines 157-169)           -/

/- ------------------------------------------------------------------ -/

/-- Base file name for a date: l3-YYYY-MM-DD.ndjson (line 163). -/

def l3BaseName (date : List Char) : List Char :=
  ['l', '3', '-'] ++ date ++ ['.', 'n', 'd', 'j', 's', 'o', 'n']

/-- Sequence file name for a date: l3-YYYY-MM-DD-NNNN.ndjson (line 167). -/

def l3SeqName (date : List Char) (n : Nat) : List Char :=
  ['l', '3', '-'] ++ date ++ ['-'] ++ pad4Chars n ++ ['.', 'n', 'd', 'j', 's', 'o', 'n']

/-- The while loop of lines 166-168: starting from index n, return the first
index whose sequence file name is not among the existing files; fuel bounds
the search (the Python loop is unbounded but terminates because the directory
is finite). -/

def firstFreeSeq (existing : List (List Char)) (date : List Char) : Nat → Nat → Nat
  | 0, n => n
  | fuel + 1, n =>
      if l3SeqName date n ∈ existing then firstFreeSeq existing date fuel (n + 1) else n

/-- Model of Recorder._next_path_for_date (lines 157-169): the base name if it
does not exist, else the first sequence name, counting from 1, that does not
exist. The directory contents are the list of existing file names. -/

def next_path_for_date (existing : List (List Char)) (date : List Char) : List Char :=
  if l3BaseName date ∈ existing then
    l3SeqName date (firstFreeSeq existing date (existing.length + 1) 1)
  else l3BaseName date

/- ------------------------------------------------------------------ -/

/- Output sink state (Recorder.__init__ lines 147-152, _open_file,     -/

/- close; the file system is a list of (path, byte size) pairs)        -/

/- ------------------------------------------------------------------ -/

/-- Sink-related state of a Recorder: _current_date, _current_file_path,
whether _file is not None, and _max_file_size_bytes. -/

structure SinkState where
  currentDate : Option (List Char)
  currentPath : Option (List Char)
  fileOpen : Bool
  maxFileSizeBytes : Option Nat
deriving DecidableEq, Repr

/-- Model of os.path.getsize (line 186) over a directory listing: the size of
the named file, or none for an OSError (file missing). -/

def fsSize : List (List Char × Nat) → List Char → Option Nat
  | [], _ => none
  | (q, sz) :: rest, p => if q = p then some sz else fsSize rest p

/-- The file names present in the directory listing. -/

def fsPaths (fs : List (List Char × Nat)) : List (List Char) := fs.map Prod.fst

/-- Lines 173-178 of _open_file: if a file is open and the date has changed,
close it and clear the path and date. -/

def rotateDate (today : List Char) (s : SinkState) : SinkState :=
  if s.fileOpen ∧ ¬ s.currentDate = some today then
    { s with fileOpen := false, currentPath := none, currentDate := none }
  else s

/-- Lines 179-192 of _open_file: if a file is open, a path is recorded and size
rotation is configured, close the file when its size has reached the limit; an
OSError from getsize is swallowed (lines 191-192) and the date is not cleared
on this branch. -/

def rotateSize (fs : List (List Char × Nat)) (s : SinkState) : SinkState :=
  match s.currentPath, s.maxFileSizeBytes with
  | some p, some m =>
      if s.fileOpen then
        match fsSize fs p with
        | some sz =>
            if m ≤ sz then { s with fileOpen := false, currentPath := none } else s
        | none => s
      else s
  | _, _ => s

/-- Model of Recorder._open_file (lines 171-198): date rotation, then size
rotation, then, if no file remains open, record today as the current date,
choose the next path for today and open it (append mode, so even an existing
file would not be truncated). -/

def open_file (today : List Char) (fs : List (List Char × Nat)) (s : SinkState) : SinkState :=
  let s1 := rotateDate today s
  let s2 := rotateSize fs s1
  if s2.fileOpen then s2
  else { s2 with
    currentDate := some today,
    currentPath := some (next_path_for_date (fsPaths fs) today),
    fileOpen := true }

/-- Model of Recorder.close (lines 212-218). The Bool records whether the body
of the if ran, i.e. whether an open handle was flushed and closed; the date and
path are cleared unconditionally, and nothing can fail. -/

def close_sink (s : SinkState) : SinkState × Bool :=
  if s.fileOpen then
    ({ s with fileOpen := false, currentDate := none, currentPath := none }, true)
  else
    ({ s with currentDate := none, currentPath := none }, false)

/- ------------------------------------------------------------------ -/

/- JSON model (json.loads / json.dumps used at lines 203 and 207).     -/

/- Numbers are restricted to integers: float literals involve IEEE 754 -/

/- double semantics and are outside this embedding, so payloads        -/

/- containing them are simply not in the domain of the modelled parser.-/

/- ------------------------------------------------------------------ -/

/- JSON values as produced by the modelled json.loads. Objects are ordered
member lists: Python dicts preserve insertion order and json.dumps emits that
order. Mutual inductives (rather than nested List fields) keep every function
on them structurally recursive. -/

mutual
inductive Json where
  | null : Json
  | bool : Bool → Json
  | num : Int → Json
  | str : List Char → Json
  | arr : JsonList → Json
  | obj : JsonMembers → Json
deriving Repr

inductive JsonList where
  | nil : JsonList
  | cons : Json → JsonList → JsonList
deriving Repr

inductive JsonMembers where
  | nil : JsonMembers
  | cons : List Char → Json → JsonMembers → JsonMembers
deriving Repr
end

/-- The whitespace characters the Python json decoder skips between tokens. -/

def isJsonWs (c : Char) : Bool := c = ' ' || c = '\t' || c = '\n' || c = '\r'

/-- Skip inter-token whitespace. -/

def skipWs : List Char → List Char
  | [] => []
  | c :: rest => if isJsonWs c then skipWs rest else c :: rest

/-- Value of one hexadecimal digit of a \\uXXXX escape (Python accepts both
cases). -/

def hexVal (c : Char) : Option Nat :=
  if 48 ≤ c.toNat ∧ c.toNat ≤ 57 then some (c.toNat - 48)
  else if 97 ≤ c.toNat ∧ c.toNat ≤ 102 then some (c.toNat - 87)
  else if 65 ≤ c.toNat ∧ c.toNat ≤ 70 then some (c.toNat - 55)
  else none

/-- The two-character escapes the Python json decoder accepts after a
backslash (besides u). -/

def escCharOf (e : Char) : Option Char :=
  if e = '"' then some '"'
  else if e = '\\' then some '\\'
  else if e = '/' then some '/'
  else if e = 'b' then some (Char.ofNat 8)
  else if e = 'f' then some (Char.ofNat 12)
  else if e = 'n' then some '\n'
  else if e = 'r' then some '\r'
  else if e = 't' then some '\t'
  else none

/-- How json.dumps with ensure_ascii=False writes one character inside a
string: the two-character shortcuts for quote, backslash and common control
characters, \\u00XX for the remaining control characters, everything else
(including non-ASCII) verbatim. -/

def escapeChar (c : Char) : List Char :=
  if c = '"' then ['\\', '"']
  else if c = '\\' then ['\\', '\\']
  else if c = '\n' then ['\\', 'n']
  else if c = '\t' then ['\\', 't']
  else if c = '\r' then ['\\', 'r']
  else if c = Char.ofNat 8 then ['\\', 'b']
  else if c = Char.ofNat 12 then ['\\', 'f']
  else if c.toNat < 32 then
    ['\\', 'u', '0', '0', Nat.digitChar (c.toNat / 16), Nat.digitChar (c.toNat % 16)]
  else [c]

/-- Escape a whole string body. -/

def escapeList : List Char → List Char
  | [] => []
  | c :: rest => escapeChar c ++ escapeList rest

/-- Decimal representation of an integer (model of str / json int output). -/

def intChars (n : Int) : List Char :=
  if n < 0 then '-' :: natChars n.natAbs else natChars n.natAbs

/-- Insertion of a parsed object member into the members accumulated so far:
Python dict item assignment keeps the position of an existing key and
overwrites its value, and appends a new key at the end. -/

def upsertM (k : List Char) (v : Json) : JsonMembers → JsonMembers
  | JsonMembers.nil => JsonMembers.cons k v JsonMembers.nil
  | JsonMembers.cons k0 v0 rest =>
      if k0 = k then JsonMembers.cons k0 v rest
      else JsonMembers.cons k0 v0 (upsertM k v rest)

/-- Key membership in an object member list. -/

def memKeyM (k : List Char) : JsonMembers → Bool
  | JsonMembers.nil => false
  | JsonMembers.cons k0 _ rest => k0 = k || memKeyM k rest

/-- All keys pairwise distinct. -/

def keysDistinctM : JsonMembers → Bool
  | JsonMembers.nil => true
  | JsonMembers.cons k _ rest => !memKeyM k rest && keysDistinctM rest

/-- Concatenation of member lists. -/

def appendM : JsonMembers → JsonMembers → JsonMembers
  | JsonMembers.nil, ys => ys
  | JsonMembers.cons k v rest, ys => JsonMembers.cons k v (appendM rest ys)

/- Well-formedness: every object in the value has pairwise distinct keys.
Values produced by the parser always satisfy this (upsertM never duplicates a
key). -/

mutual
def wfJ : Json → Bool
  | Json.null => true
  | Json.bool _ => true
  | Json.num _ => true
  | Json.str _ => true
  | Json.arr vs => wfL vs
  | Json.obj kvs => keysDistinctM kvs && wfM kvs

def wfL : JsonList → Bool
  | JsonList.nil => true
  | JsonList.cons v vs => wfJ v && wfL vs

def wfM : JsonMembers → Bool
  | JsonMembers.nil => true
  | JsonMembers.cons _ v kvs => wfJ v && wfM kvs
end

/- Model of json.dumps(obj, ensure_ascii=False) (line 207) with the default
separators: ", " between array items and object members, ": " after keys. -/

mutual
def dumpsVal : Json → List Char
  | Json.null => ['n', 'u', 'l', 'l']
  | Json.bool true => ['t', 'r', 'u', 'e']
  | Json.bool false => ['f', 'a', 'l', 's', 'e']
  | Json.num n => intChars n
  | Json.str s => '"' :: (escapeList s ++ ['"'])
  | Json.arr JsonList.nil => ['[', ']']
  | Json.arr (JsonList.cons v vs) => '[' :: (dumpsVal v ++ dumpsArrRest vs ++ [']'])
  | Json.obj JsonMembers.nil => [Char.ofNat 123, Char.ofNat 125]
  | Json.obj (JsonMembers.cons k v kvs) =>
      Char.ofNat 123 ::
        ('"' :: (escapeList k ++ ['"', ':', ' '] ++ dumpsVal v ++ dumpsObjRest kvs ++
          [Char.ofNat 125]))

def dumpsArrRest : JsonList → List Char
  | JsonList.nil => []
  | JsonList.cons v vs => ',' :: ' ' :: (dumpsVal v ++ dumpsArrRest vs)

def dumpsObjRest : JsonMembers → List Char
  | JsonMembers.nil => []
  | JsonMembers.cons k v kvs =>
      ',' :: ' ' :: ('"' :: (escapeList k ++ ['"', ':', ' '] ++ dumpsVal v ++ dumpsObjRest kvs))
end

/- Fuel needed by the parser on the serialized form of a value: one unit per
nesting step of the recursion. -/

mutual
def pneed : Json → Nat
  | Json.null => 1
  | Json.bool _ => 1
  | Json.num _ => 1
  | Json.str _ => 1
  | Json.arr JsonList.nil => 1
  | Json.arr (JsonList.cons v vs) => 1 + max (pneed v) (pneedL vs)
  | Json.obj JsonMembers.nil => 1
  | Json.obj (JsonMembers.cons _ v kvs) => 1 + max (pneed v) (pneedM kvs)

def pneedL : JsonList → Nat
  | JsonList.nil => 1
  | JsonList.cons v vs => 1 + max (pneed v) (pneedL vs)

def pneedM : JsonMembers → Nat
  | JsonMembers.nil => 1
  | JsonMembers.cons _ v kvs => 1 + max (pneed v) (pneedM kvs)
end

/-- Body of a JSON string after the opening quote: ordinary characters (raw
control characters are rejected, as in the strict Python decoder), escapes,
and \\uXXXX; returns the decoded string and the text after the closing
quote. -/

def parseStringBody : Nat → List Char → Option (List Char × List Char)
  | 0, _ => none
  | F + 1, cs =>
    match cs with
    | [] => none
    | c :: rest =>
        if c = '"' then some ([], rest)
        else if c = '\\' then
          match rest with
          | [] => none
          | e :: rest2 =>
            if e = 'u' then
              match rest2 with
              | h1 :: h2 :: h3 :: h4 :: rest3 =>
                match hexVal h1, hexVal h2, hexVal h3, hexVal h4 with
                | some a, some b, some c2, some d =>
                  (match parseStringBody F rest3 with
                   | some (s, r) => some (Char.ofNat (4096 * a + 256 * b + 16 * c2 + d) :: s, r)
                   | none => none)
                | _, _, _, _ => none
              | _ => none
            else
              match escCharOf e with
              | some ec =>
                (match parseStringBody F rest2 with
                 | some (s, r) => some (ec :: s, r)
                 | none => none)
              | none => none
        else if c.toNat < 32 then none
        else
          match parseStringBody F rest with
          | some (s, r) => some (c :: s, r)
          | none => none

/-- True when the text does not begin with a decimal digit (so a number ending
right before it cannot absorb it). -/

def noDigitStart : List Char → Bool
  | [] => true
  | c :: _ => !isDigitCh c

/-- Longest digit run at the front. -/

def takeDigits : List Char → List Char × List Char
  | [] => ([], [])
  | c :: rest =>
    if isDigitCh c then
      ((takeDigits rest).1.cons c, (takeDigits rest).2)
    else ([], c :: rest)

/-- Unsigned part of a JSON number: a single 0, or a nonzero digit followed by
digits (the JSON grammar forbids leading zeros). -/

def parseNatNum : List Char → Option (Nat × List Char)
  | [] => none
  | c :: rest =>
    if c = '0' then
      if noDigitStart rest then some (0, rest) else none
    else if isDigitCh c then
      some (charsValAux (digitValCh c) (takeDigits rest).1, (takeDigits rest).2)
    else none

/-- JSON number (integers only, see the section comment). -/

def parseNumber : List Char → Option (Json × List Char)
  | [] => none
  | c :: rest =>
    if c = '-' then
      match parseNatNum rest with
      | some (n, r) => some (Json.num (-(n : Int)), r)
      | none => none
    else
      match parseNatNum (c :: rest) with
      | some (n, r) => some (Json.num ((n : Int)), r)
      | none => none

/- Recursive-descent model of the Python json decoder on the integer
fragment. The fuel argument only bounds the nesting of recursive calls, each
of which consumes at least one character, so length + 1 fuel is always
enough. -/

mutual
def parseVal : Nat → List Char → Option (Json × List Char)
  | 0, _ => none
  | F + 1, cs =>
    match skipWs cs with
    | [] => none
    | c :: rest =>
      if c = 'n' then
        match rest with
        | 'u' :: 'l' :: 'l' :: rest2 => some (Json.null, rest2)
        | _ => none
      else if c = 't' then
        match rest with
        | 'r' :: 'u' :: 'e' :: rest2 => some (Json.bool true, rest2)
        | _ => none
      else if c = 'f' then
        match rest with
        | 'a' :: 'l' :: 's' :: 'e' :: rest2 => some (Json.bool false, rest2)
        | _ => none
      else if c = '"' then
        match parseStringBody (rest.length + 1) rest with
        | some (s, rest2) => some (Json.str s, rest2)
        | none => none
      else if c = '[' then
        match skipWs rest with
        | [] => none
        | c2 :: rest2 =>
          if c2 = ']' then some (Json.arr JsonList.nil, rest2)
          else
            match parseVal F rest with
            | some (v, rest3) =>
              (match parseArrRest F rest3 with
               | some (vs, rest4) => some (Json.arr (JsonList.cons v vs), rest4)
               | none => none)
            | none => none
      else if c = Char.ofNat 123 then
        match skipWs rest with
        | [] => none
        | c2 :: rest2 =>
          if c2 = Char.ofNat 125 then some (Json.obj JsonMembers.nil, rest2)
          else if c2 = '"' then
            match parseStringBody (rest2.length + 1) rest2 with
            | some (k, rest3) =>
              (match skipWs rest3 with
               | [] => none
               | c3 :: rest4 =>
                 if c3 = ':' then
                   match parseVal F rest4 with
                   | some (v, rest5) =>
                     (match parseObjRest F rest5 (upsertM k v JsonMembers.nil) with
                      | some (kvs, rest6) => some (Json.obj kvs, rest6)
                      | none => none)
                   | none => none
                 else none)
            | none => none
          else none
      else parseNumber (c :: rest)

def parseArrRest : Nat → List Char → Option (JsonList × List Char)
  | 0, _ => none
  | F + 1, cs =>
    match skipWs cs with
    | [] => none
    | c :: rest =>
      if c = ']' then some (JsonList.nil, rest)
      else if c = ',' then
        match parseVal F rest with
        | some (v, rest2) =>
          (match parseArrRest F rest2 with
           | some (vs, rest3) => some (JsonList.cons v vs, rest3)
           | none => none)
        | none => none
      else none

def parseObjRest : Nat → List Char → JsonMembers → Option (JsonMembers × List Char)
  | 0, _, _ => none
  | F + 1, cs, acc =>
    match skipWs cs with
    | [] => none
    | c :: rest =>
      if c = Char.ofNat 125 then some (acc, rest)
      else if c = ',' then
        match skipWs rest with
        | [] => none
        | c2 :: rest2 =>
          if c2 = '"' then
            match parseStringBody (rest2.length + 1) rest2 with
            | some (k, rest3) =>
              (match skipWs rest3 with
               | [] => none
               | c3 :: rest4 =>
                 if c3 = ':' then
                   match parseVal F rest4 with
                   | some (v, rest5) => parseObjRest F rest5 (upsertM k v acc)
                   | none => none
                 else none)
            | none => none
          else none
      else none
end

/-- Model of json.loads (line 203): decode one value, then require only
whitespace to remain; every failure is a JSONDecodeError, modelled none. -/

def json_loads (cs : List Char) : Option Json :=
  match parseVal (cs.length + 1) cs with
  | some (v, rest) => if skipWs rest = [] then some v else none
  | none => none

/-- The text written for one message by Recorder.write_message (lines 200-210):
canonical re-serialization plus one newline when the payload parses as JSON,
otherwise the raw text with trailing whitespace stripped plus one newline.
Both branches are total: a non-JSON payload is not an error. -/

def write_message_text (raw : List Char) : List Char :=
  match json_loads raw with
  | some v => dumpsVal v ++ ['\n']
  | none => pyRstrip raw ++ ['\n']

/- ------------------------------------------------------------------ -/
/- Theorems                                                            -/
/- ------------------------------------------------------------------ -/

/- ------------------------------------------------------------------ -/

/- Theorems for claim C2                                               -/

/- ------------------------------------------------------------------ -/

theorem backoffNext_nonneg (b : ℚ) (hb : 0 ≤ b) : 0 ≤ backoffNext b := by
  unfold backoffNext
  have h2 : (0 : ℚ) ≤ b * BACKOFF_MULT := by
    have : (0 : ℚ) ≤ BACKOFF_MULT := by norm_num [BACKOFF_MULT]
    exact mul_nonneg hb this
  have h60 : (0 : ℚ) ≤ BACKOFF_MAX := by norm_num [BACKOFF_MAX]
  exact le_min h2 h60

theorem runDelays_replicate_fail (N : ℕ) :
    ∀ b : ℚ, 0 ≤ b →
      runDelays b (List.replicate N RunEvent.fail) =
        (List.range N).map (fun k => min (b * BACKOFF_MULT ^ k) BACKOFF_MAX) := by
  induction N with
  | zero => intro b _; simp [runDelays]
  | succ n ih =>
    intro b hb
    have hrep : List.replicate (n + 1) RunEvent.fail =
        RunEvent.fail :: List.replicate n RunEvent.fail := rfl
    rw [hrep]
    have hstep : runDelays b (RunEvent.fail :: List.replicate n RunEvent.fail) =
        backoffDelay b :: runDelays (backoffNext b) (List.replicate n RunEvent.fail) := rfl
    rw [hstep, ih (backoffNext b) (backoffNext_nonneg b hb)]
    rw [List.range_succ_eq_map, List.map_cons, List.map_map]
    congr 1
    · simp [backoffDelay, pow_zero, mul_one]
    · apply List.map_congr_left
      intro k _
      show min (backoffNext b * BACKOFF_MULT ^ k) BACKOFF_MAX =
        min (b * BACKOFF_MULT ^ (k + 1)) BACKOFF_MAX
      unfold backoffNext
      rcases le_total (b * BACKOFF_MULT) BACKOFF_MAX with h | h
      · rw [min_eq_left h]
        congr 1
        rw [pow_succ]
        ring
      · rw [min_eq_right h]
        have hpow : (1 : ℚ) ≤ BACKOFF_MULT ^ k :=
          one_le_pow₀ (by norm_num [BACKOFF_MULT])
        have h1 : BACKOFF_MAX ≤ BACKOFF_MAX * BACKOFF_MULT ^ k :=
          le_mul_of_one_le_right (by norm_num [BACKOFF_MAX]) hpow
        have h3 : BACKOFF_MAX * BACKOFF_MULT ^ k ≤ (b * BACKOFF_MULT) * BACKOFF_MULT ^ k :=
          mul_le_mul_of_nonneg_right h (by linarith)
        have h4 : (b * BACKOFF_MULT) * BACKOFF_MULT ^ k = b * BACKOFF_MULT ^ (k + 1) := by
          rw [pow_succ]; ring
        have h2 : BACKOFF_MAX ≤ b * BACKOFF_MULT ^ (k + 1) := by linarith
        rw [min_eq_right h1, min_eq_right h2]

/-- Claim C2: after a successful subscribe, the backoff is reset, and for every
N ≥ 1 the Nth consecutive failure sleeps min(BACKOFF_INIT * BACKOFF_MULT^(N-1),
BACKOFF_MAX); the full delay sequence after a success is the geometric capped
sequence, independent of the backoff value before the success, and the first
failure after a success sleeps exactly BACKOFF_INIT. -/

theorem backoff_formula_and_reset (b0 : ℚ) (N : ℕ) (hN : 1 ≤ N) :
    runDelays b0 (RunEvent.success :: List.replicate N RunEvent.fail) =
      (List.range N).map (fun k => min (BACKOFF_INIT * BACKOFF_MULT ^ k) BACKOFF_MAX) ∧
    (runDelays b0 (RunEvent.success :: List.replicate N RunEvent.fail))[N - 1]? =
      some (min (BACKOFF_INIT * BACKOFF_MULT ^ (N - 1)) BACKOFF_MAX) ∧
    runDelays b0 [RunEvent.success, RunEvent.fail] = [BACKOFF_INIT] := by
  have hreset : runDelays b0 (RunEvent.success :: List.replicate N RunEvent.fail) =
      runDelays BACKOFF_INIT (List.replicate N RunEvent.fail) := rfl
  have hinit : (0 : ℚ) ≤ BACKOFF_INIT := by norm_num [BACKOFF_INIT]
  have hmain := runDelays_replicate_fail N BACKOFF_INIT hinit
  refine ⟨hreset.trans hmain, ?_, ?_⟩
  · rw [hreset, hmain, List.getElem?_map, List.getElem?_range (by omega : N - 1 < N)]
    rfl
  · show runDelays BACKOFF_INIT [RunEvent.fail] = [BACKOFF_INIT]
    show [backoffDelay BACKOFF_INIT] = [BACKOFF_INIT]
    unfold backoffDelay BACKOFF_INIT BACKOFF_MAX
    norm_num

/-- Witness for C2 at b0 = 7, N = 2: the delays after a reset are 1 s then 2 s. -/

theorem backoff_formula_and_reset_witness :
    (1 ≤ 2 ∧
      runDelays 7 (RunEvent.success :: List.replicate 2 RunEvent.fail) =
        (List.range 2).map (fun k => min (BACKOFF_INIT * BACKOFF_MULT ^ k) BACKOFF_MAX)) :=
  ⟨by norm_num, (backoff_formula_and_reset 7 2 (by norm_num)).1⟩

/- ------------------------------------------------------------------ -/

/- Theorems for claim C3                                               -/

/- ------------------------------------------------------------------ -/

theorem loopTick_iterate_sleeping (k : ℕ) :
    ∀ r : ℕ, k ≤ r →
      loopTick^[k] ⟨LoopPhase.sleepingMs r, true⟩ = ⟨LoopPhase.sleepingMs (r - k), true⟩ := by
  induction k with
  | zero => intro r _; simp
  | succ n ih =>
    intro r hr
    obtain ⟨r2, rfl⟩ : ∃ r2, r = r2 + 1 := ⟨r - 1, by omega⟩
    rw [Function.iterate_succ_apply]
    have hstep : loopTick ⟨LoopPhase.sleepingMs (r2 + 1), true⟩ =
        ⟨LoopPhase.sleepingMs r2, true⟩ := rfl
    rw [hstep, ih r2 (by omega)]
    have heq : r2 + 1 - (n + 1) = r2 - n := by omega
    rw [heq]

/-- Counterexample to claim C3: shutdown is requested while 59999 ms of a 60 s
backoff sleep remain, yet after 1000 ms (a full second) the process is still
inside asyncio.sleep, not at Closed: the sleep is not interrupted. -/

theorem shutdown_during_sleep_counterexample :
    loopTick^[1000] ⟨LoopPhase.sleepingMs 59999, true⟩ =
      ⟨LoopPhase.sleepingMs 58999, true⟩ ∧
    (loopTick^[1000] ⟨LoopPhase.sleepingMs 59999, true⟩).phase ≠ LoopPhase.closed := by
  have h := loopTick_iterate_sleeping 1000 59999 (by omega)
  refine ⟨h, ?_⟩
  rw [h]
  simp

/-- Claim C3 amended: a shutdown request arriving during the backoff sleep does
not interrupt the sleep; with r ms remaining the run loop stays asleep for all
of those r ms (never at Closed in that window) and reaches Closed only at the
first shutdown check after the sleep returns, r + 1 steps later. -/

theorem shutdown_during_sleep_waits_full_delay (r k : ℕ) (hk : k ≤ r) :
    (loopTick^[k] ⟨LoopPhase.sleepingMs r, true⟩).phase = LoopPhase.sleepingMs (r - k) ∧
    (loopTick^[k] ⟨LoopPhase.sleepingMs r, true⟩).phase ≠ LoopPhase.closed ∧
    loopTick^[r + 1] ⟨LoopPhase.sleepingMs r, true⟩ = ⟨LoopPhase.closed, true⟩ := by
  have h := loopTick_iterate_sleeping k r hk
  refine ⟨by rw [h], by rw [h]; simp, ?_⟩
  rw [Function.iterate_succ_apply', loopTick_iterate_sleeping r r (le_refl r)]
  simp [loopTick]

/-- Witness for the amended C3 at r = 60000, k = 250. -/

theorem shutdown_during_sleep_waits_full_delay_witness :
    250 ≤ 60000 ∧
    (loopTick^[250] ⟨LoopPhase.sleepingMs 60000, true⟩).phase ≠ LoopPhase.closed :=
  ⟨by omega, (shutdown_during_sleep_waits_full_delay 60000 250 (by omega)).2.1⟩

/- ------------------------------------------------------------------ -/

/- Theorems for claim C8                                               -/

/- ------------------------------------------------------------------ -/

/-- Counterexample to claim C8: two successive token acquisitions whose clock
readings fall in the same millisecond (here 0.1 ms and then 0.5 ms) produce the
same nonce, so the later nonce is not strictly greater. -/

theorem kraken_nonce_repeat_counterexample :
    ((1 : ℚ)/10000 < 1/2000) ∧
    kraken_nonce (1/10000) = 0 ∧ kraken_nonce (1/2000) = 0 := by
  refine ⟨by norm_num, ?_, ?_⟩
  · show Int.floor ((1 : ℚ)/10000 * 1000) = 0
    rw [Int.floor_eq_zero_iff]
    constructor <;> norm_num
  · show Int.floor ((1 : ℚ)/2000 * 1000) = 0
    rw [Int.floor_eq_zero_iff]
    constructor <;> norm_num

/-- Claim C8 amended: the nonce is the wall-clock millisecond count, so it
never decreases as long as the clock does not go backward, and it strictly
increases between calls separated by at least one millisecond; the code itself
enforces no monotonicity, so calls within the same millisecond repeat the
nonce (see the counterexample). -/

theorem kraken_nonce_monotone_under_clock (t1 t2 : ℚ) :
    (t1 ≤ t2 → kraken_nonce t1 ≤ kraken_nonce t2) ∧
    (t1 + 1/1000 ≤ t2 → kraken_nonce t1 < kraken_nonce t2) := by
  constructor
  · intro h
    exact Int.floor_le_floor (by nlinarith)
  · intro h
    have h1 : t1 * 1000 + 1 ≤ t2 * 1000 := by nlinarith
    have h2 : Int.floor (t1 * 1000 + (1 : ℤ)) ≤ Int.floor (t2 * 1000) := by
      apply Int.floor_le_floor
      push_cast
      linarith
    rw [Int.floor_add_int] at h2
    unfold kraken_nonce
    omega

/-- Witness for the amended C8 at t1 = 0 s, t2 = 1 s. -/

theorem kraken_nonce_monotone_under_clock_witness :
    ((0 : ℚ) + 1/1000 ≤ 1) ∧ kraken_nonce 0 < kraken_nonce 1 :=
  ⟨by norm_num, (kraken_nonce_monotone_under_clock 0 1).2 (by norm_num)⟩

/- ------------------------------------------------------------------ -/

/- Theorems for claim C10                                              -/

/- ------------------------------------------------------------------ -/

/-- Claim C10: an unparsable KRAKEN_L3_MAX_FILE_SIZE_MB value is silently
ignored, the configured (or default) value is kept, and configuration loading
never fails on this input (the model is a total function). -/

theorem load_config_max_file_size_ignores_bad_env (base : Option Int) (s : List Char)
    (h : pyIntOfString s = none) :
    load_config_max_file_size base (some s) = base ∧
    load_config_max_file_size base none = base := by
  constructor
  · simp [load_config_max_file_size, h]
  · rfl

/-- Witness for C10 with the non-integer value "12x". -/

theorem load_config_max_file_size_ignores_bad_env_witness :
    pyIntOfString ['1', '2', 'x'] = none ∧
    load_config_max_file_size (some 25) (some ['1', '2', 'x']) = some 25 :=
  ⟨by decide, (load_config_max_file_size_ignores_bad_env (some 25) ['1', '2', 'x']
    (by decide)).1⟩

/- ------------------------------------------------------------------ -/

/- Theorems for claim C1                                               -/

/- ------------------------------------------------------------------ -/

/-- Counterexample to claim C1: with a valid symbol list and depth but no API
key or secret, main does not exit (it proceeds with a warning), and the first
run-loop iteration neither exits nor attempts a connection: it sleeps the
backoff delay and retries, so the absence of credentials is not a fatal
startup error. -/

theorem missing_creds_not_fatal_counterexample :
    main_startup ⟨[['B', 'T', 'C']], 10, none, none⟩ ≠ StartupResult.exitConfigError ∧
    main_startup ⟨[['B', 'T', 'C']], 10, none, none⟩ = StartupResult.proceed true ∧
    run_iter_start false none none BACKOFF_INIT = RunAction.sleepRetry BACKOFF_INIT ∧
    run_iter_start false none none BACKOFF_INIT ≠ RunAction.attemptConnect ∧
    run_iter_start false none none BACKOFF_INIT ≠ RunAction.exitLoop := by
  refine ⟨by decide, by decide, ?_, by decide, by decide⟩
  show RunAction.sleepRetry (min BACKOFF_INIT BACKOFF_MAX) = RunAction.sleepRetry BACKOFF_INIT
  norm_num [BACKOFF_INIT, BACKOFF_MAX]

/-- Claim C1 amended: startup exits only for an empty symbol list or an invalid
depth; missing or empty credentials merely cause a startup warning, and every
run-loop iteration that finds them missing sleeps the capped backoff delay and
retries without attempting a connection; the run loop exits only on an
explicit shutdown request. -/

theorem missing_creds_warn_and_retry (c : AppConfig) (b : ℚ) :
    (main_startup c = StartupResult.exitConfigError ↔
      (c.symbols = [] ∨ ¬(c.depth = 10 ∨ c.depth = 100 ∨ c.depth = 1000))) ∧
    (¬(truthyStr c.api_key ∧ truthyStr c.api_secret) →
      ((c.symbols ≠ [] ∧ (c.depth = 10 ∨ c.depth = 100 ∨ c.depth = 1000)) →
        main_startup c = StartupResult.proceed true) ∧
      run_iter_start false c.api_key c.api_secret b =
        RunAction.sleepRetry (min b BACKOFF_MAX)) ∧
    (∀ sh, run_iter_start sh c.api_key c.api_secret b = RunAction.exitLoop ↔ sh = true) := by
  refine ⟨?_, ?_, ?_⟩
  · unfold main_startup
    by_cases h1 : c.symbols = []
    · simp [h1]
    · by_cases h2 : c.depth = 10 ∨ c.depth = 100 ∨ c.depth = 1000
      · simp [h1, h2]
      · simp [h1, h2]
  · intro hmiss
    have hb : (truthyStr c.api_key && truthyStr c.api_secret) = false := by
      cases h : (truthyStr c.api_key && truthyStr c.api_secret)
      · rfl
      · exact absurd ((Bool.and_eq_true _ _).mp h) hmiss
    constructor
    · rintro ⟨h1, h2⟩
      unfold main_startup
      simp [h1, h2, hb]
    · unfold run_iter_start
      simp [hb]
  · intro sh
    cases sh with
    | true => simp [run_iter_start]
    | false =>
      simp only [run_iter_start]
      cases hc : (truthyStr c.api_key && truthyStr c.api_secret) <;> simp [hc]

/-- Witness for the amended C1: credentials where the secret is the empty
string (falsy in Python), valid symbols and depth. -/

theorem missing_creds_warn_and_retry_witness :
    ¬(truthyStr (some ['k']) ∧ truthyStr (some [])) ∧
    run_iter_start false (some ['k']) (some []) 5 = RunAction.sleepRetry (min 5 BACKOFF_MAX) :=
  ⟨by decide,
    ((missing_creds_warn_and_retry ⟨[['a']], 10, some ['k'], some []⟩ 5).2.1 (by decide)).2⟩

/- ------------------------------------------------------------------ -/

/- Numeral lemmas                                                      -/

/- ------------------------------------------------------------------ -/

theorem charsValAux_nil (a : Nat) : charsValAux a [] = a := rfl

theorem charsValAux_cons (a : Nat) (c : Char) (l : List Char) :
    charsValAux a (c :: l) = charsValAux (a * 10 + digitValCh c) l := rfl

theorem digitValCh_digitChar (d : Nat) (h : d < 10) :
    digitValCh (Nat.digitChar d) = d := by
  interval_cases d <;> rfl

theorem charsValAux_append (l1 l2 : List Char) :
    ∀ a, charsValAux a (l1 ++ l2) = charsValAux (charsValAux a l1) l2 := by
  induction l1 with
  | nil => intro a; rfl
  | cons c rest ih => intro a; exact ih (a * 10 + digitValCh c)

theorem charsValAux_digits (ds : List Nat) :
    ∀ a, (∀ d ∈ ds, d < 10) →
      charsValAux a (ds.reverse.map Nat.digitChar) = a * 10 ^ ds.length + Nat.ofDigits 10 ds := by
  induction ds with
  | nil =>
    intro a _
    rw [show (([] : List Nat).reverse.map Nat.digitChar) = ([] : List Char) from rfl,
      charsValAux_nil, Nat.ofDigits_nil]
    simp
  | cons d ds ih =>
    intro a hlt
    rw [List.reverse_cons, List.map_append, charsValAux_append]
    have hds : ∀ x ∈ ds, x < 10 := fun x hx => hlt x (List.mem_cons_of_mem d hx)
    rw [ih a hds]
    rw [List.map_cons, List.map_nil, charsValAux_cons, charsValAux_nil]
    rw [digitValCh_digitChar d (hlt d (List.mem_cons_self d ds))]
    rw [Nat.ofDigits_cons, List.length_cons]
    ring

theorem natCharsAux_eq_digits (fuel : Nat) :
    ∀ n, n ≤ fuel → natCharsAux fuel n = (Nat.digits 10 n).reverse.map Nat.digitChar := by
  induction fuel with
  | zero =>
    intro n hn
    have : n = 0 := by omega
    subst this
    simp [natCharsAux]
  | succ f ih =>
    intro n hn
    by_cases h0 : n = 0
    · subst h0; simp [natCharsAux]
    · have hpos : 0 < n := Nat.pos_of_ne_zero h0
      have hdiv : n / 10 < n := Nat.div_lt_self hpos (by norm_num)
      rw [show natCharsAux (f + 1) n =
        natCharsAux f (n / 10) ++ [Nat.digitChar (n % 10)] by simp [natCharsAux, h0]]
      rw [ih (n / 10) (by omega)]
      rw [Nat.digits_def' (by norm_num : (1 : Nat) < 10) hpos]
      simp

theorem natChars_val (n : Nat) : charsValAux 0 (natChars n) = n := by
  by_cases h0 : n = 0
  · subst h0; rfl
  · unfold natChars
    rw [if_neg h0, natCharsAux_eq_digits n n (le_refl n)]
    have hlt : ∀ d ∈ Nat.digits 10 n, d < 10 :=
      fun d hd => Nat.digits_lt_base (by norm_num) hd
    rw [charsValAux_digits (Nat.digits 10 n) 0 hlt, Nat.ofDigits_digits]
    simp

theorem charsValAux_zero_replicate (k : Nat) :
    ∀ l, charsValAux 0 (List.replicate k '0' ++ l) = charsValAux 0 l := by
  induction k with
  | zero => intro l; rfl
  | succ m ih =>
    intro l
    show charsValAux (0 * 10 + digitValCh '0') (List.replicate m '0' ++ l) = charsValAux 0 l
    have : (0 : Nat) * 10 + digitValCh '0' = 0 := by decide
    rw [this]
    exact ih l

theorem pad4Chars_val (n : Nat) : charsValAux 0 (pad4Chars n) = n := by
  unfold pad4Chars
  rw [charsValAux_zero_replicate, natChars_val]

theorem pad4Chars_inj {n m : Nat} (h : pad4Chars n = pad4Chars m) : n = m := by
  have := congrArg (charsValAux 0) h
  rwa [pad4Chars_val, pad4Chars_val] at this

theorem l3SeqName_inj (date : List Char) {n m : Nat}
    (h : l3SeqName date n = l3SeqName date m) : n = m := by
  unfold l3SeqName at h
  have h1 := List.append_cancel_right h
  have h2 := List.append_cancel_left h1
  exact pad4Chars_inj h2

/- ------------------------------------------------------------------ -/

/- Theorems for claim C6                                               -/

/- ------------------------------------------------------------------ -/

theorem firstFreeSeq_spec (existing : List (List Char)) (date : List Char) (fuel : Nat) :
    ∀ n, (∃ k, k ≤ fuel ∧ l3SeqName date (n + k) ∉ existing) →
      n ≤ firstFreeSeq existing date fuel n ∧
      l3SeqName date (firstFreeSeq existing date fuel n) ∉ existing ∧
      ∀ m, n ≤ m → m < firstFreeSeq existing date fuel n → l3SeqName date m ∈ existing := by
  induction fuel with
  | zero =>
    rintro n ⟨k, hk, hfree⟩
    have hk0 : k = 0 := by omega
    subst hk0
    rw [Nat.add_zero] at hfree
    have hunf : firstFreeSeq existing date 0 n = n := rfl
    rw [hunf]
    exact ⟨le_refl n, hfree, fun m h1 h2 => absurd h2 (by omega)⟩
  | succ f ih =>
    rintro n ⟨k, hk, hfree⟩
    have hunf : firstFreeSeq existing date (f + 1) n =
        if l3SeqName date n ∈ existing then firstFreeSeq existing date f (n + 1) else n := rfl
    by_cases hmem : l3SeqName date n ∈ existing
    · rw [if_pos hmem] at hunf
      have hk0 : k ≠ 0 := by
        intro h
        subst h
        rw [Nat.add_zero] at hfree
        exact hfree hmem
      have hex : ∃ k2, k2 ≤ f ∧ l3SeqName date (n + 1 + k2) ∉ existing :=
        ⟨k - 1, by omega, by rw [show n + 1 + (k - 1) = n + k by omega]; exact hfree⟩
      obtain ⟨h1, h2, h3⟩ := ih (n + 1) hex
      rw [hunf]
      refine ⟨by omega, h2, ?_⟩
      intro m hm1 hm2
      by_cases hmn : m = n
      · subst hmn; exact hmem
      · exact h3 m (by omega) hm2
    · rw [if_neg hmem] at hunf
      rw [hunf]
      exact ⟨le_refl n, hmem, fun m h1 h2 => absurd h1 (by omega)⟩

theorem exists_free_seq_index (existing : List (List Char)) (date : List Char) :
    ∃ k, k ≤ existing.length ∧ l3SeqName date (1 + k) ∉ existing := by
  by_contra hcon
  push_neg at hcon
  have hinj : Function.Injective (fun k => l3SeqName date (1 + k)) := by
    intro x y hxy
    have hxy2 : l3SeqName date (1 + x) = l3SeqName date (1 + y) := hxy
    have := l3SeqName_inj date hxy2
    omega
  have hsub : (Finset.range (existing.length + 1)).image
      (fun k => l3SeqName date (1 + k)) ⊆ existing.toFinset := by
    intro x hx
    rw [Finset.mem_image] at hx
    obtain ⟨k, hk, rfl⟩ := hx
    rw [List.mem_toFinset]
    exact hcon k (Nat.lt_succ_iff.mp (Finset.mem_range.mp hk))
  have hcard1 : ((Finset.range (existing.length + 1)).image
      (fun k => l3SeqName date (1 + k))).card = existing.length + 1 := by
    rw [Finset.card_image_of_injective _ hinj, Finset.card_range]
  have hcard2 := Finset.card_le_card hsub
  have hcard3 := existing.toFinset_card_le
  omega

/-- Claim C6: the chosen output path is the date-keyed base name when that name
is absent from the directory, and otherwise the sequence name with the smallest
index n ≥ 1 absent from the directory; in both cases the chosen path names no
existing file, so no existing file is ever overwritten (the file is moreover
opened in append mode, line 197). -/

theorem next_path_for_date_spec (existing : List (List Char)) (date : List Char) :
    next_path_for_date existing date ∉ existing ∧
    (l3BaseName date ∉ existing → next_path_for_date existing date = l3BaseName date) ∧
    (l3BaseName date ∈ existing →
      ∃ n, 1 ≤ n ∧ next_path_for_date existing date = l3SeqName date n ∧
        l3SeqName date n ∉ existing ∧
        ∀ m, 1 ≤ m → m < n → l3SeqName date m ∈ existing) := by
  by_cases hb : l3BaseName date ∈ existing
  · have hunf : next_path_for_date existing date =
        l3SeqName date (firstFreeSeq existing date (existing.length + 1) 1) := by
      unfold next_path_for_date
      rw [if_pos hb]
    obtain ⟨k, hk, hfree⟩ := exists_free_seq_index existing date
    obtain ⟨h1, h2, h3⟩ := firstFreeSeq_spec existing date (existing.length + 1) 1
      ⟨k, by omega, hfree⟩
    refine ⟨?_, fun h => absurd hb h, fun _ => ⟨_, h1, hunf, h2, fun m a b => h3 m a b⟩⟩
    rw [hunf]
    exact h2
  · have hunf : next_path_for_date existing date = l3BaseName date := by
      unfold next_path_for_date
      rw [if_neg hb]
    refine ⟨?_, fun _ => hunf, fun h => absurd h hb⟩
    rw [hunf]
    exact hb

/-- Witness for C6: a directory already holding the base file and the first
sequence file for the date; the chosen path avoids both. -/

theorem next_path_for_date_spec_witness :
    l3BaseName ['d'] ∈ [l3BaseName ['d'], l3SeqName ['d'] 1] ∧
    next_path_for_date [l3BaseName ['d'], l3SeqName ['d'] 1] ['d'] ∉
      [l3BaseName ['d'], l3SeqName ['d'] 1] :=
  ⟨by decide, (next_path_for_date_spec [l3BaseName ['d'], l3SeqName ['d'] 1] ['d']).1⟩

/- ------------------------------------------------------------------ -/

/- Theorems for claim C9                                               -/

/- ------------------------------------------------------------------ -/

/-- Claim C9: close is idempotent: after one call the handle is closed and the
date and path are cleared; the flush-and-close body runs exactly when a file
was open; and a second call returns the same state unchanged without flushing
(and, being a total function, without error). -/

theorem close_sink_idempotent (s : SinkState) :
    (close_sink s).1.fileOpen = false ∧
    (close_sink s).1.currentDate = none ∧
    (close_sink s).1.currentPath = none ∧
    (close_sink s).2 = s.fileOpen ∧
    close_sink (close_sink s).1 = ((close_sink s).1, false) := by
  cases h : s.fileOpen <;> simp [close_sink, h]

/- ------------------------------------------------------------------ -/

/- Theorems for claim C7                                               -/

/- ------------------------------------------------------------------ -/

theorem fsSize_some_mem (fs : List (List Char × Nat)) (p : List Char) (sz : Nat)
    (h : fsSize fs p = some sz) : p ∈ fsPaths fs := by
  induction fs with
  | nil => exact absurd h (by simp [fsSize])
  | cons hd tl ih =>
    obtain ⟨q, qsz⟩ := hd
    by_cases hq : q = p
    · subst hq
      exact List.mem_cons_self q (fsPaths tl)
    · have hstep : fsSize ((q, qsz) :: tl) p = fsSize tl p := by
        simp [fsSize, hq]
      rw [hstep] at h
      exact List.mem_cons_of_mem q (ih h)

/-- Claim C7: when size rotation is configured with threshold T and, before a
write, the open file for today has size at least T, open_file closes it and
directs the write to the fresh next path for the same day, which names no
existing file; when size rotation is not configured, open_file leaves an open
file for today untouched, so no size-based rotation ever occurs. -/

theorem size_rotation_spec :
    (∀ (s : SinkState) (fs : List (List Char × Nat)) (today p : List Char) (T sz : Nat),
      s.maxFileSizeBytes = some T → s.fileOpen = true → s.currentPath = some p →
      s.currentDate = some today → fsSize fs p = some sz → T ≤ sz →
      (open_file today fs s).fileOpen = true ∧
      (open_file today fs s).currentDate = some today ∧
      (open_file today fs s).currentPath = some (next_path_for_date (fsPaths fs) today) ∧
      next_path_for_date (fsPaths fs) today ≠ p ∧
      next_path_for_date (fsPaths fs) today ∉ fsPaths fs) ∧
    (∀ (s : SinkState) (fs : List (List Char × Nat)) (today : List Char),
      s.maxFileSizeBytes = none → s.fileOpen = true → s.currentDate = some today →
      open_file today fs s = s) := by
  constructor
  · intro s fs today p T sz hmax hopen hpath hdate hsz hT
    obtain ⟨d, cp, fo, mx⟩ := s
    simp only at hmax hopen hpath hdate
    subst hmax hopen hpath hdate
    have hfresh := (next_path_for_date_spec (fsPaths fs) today).1
    have hne : next_path_for_date (fsPaths fs) today ≠ p := by
      intro he
      rw [he] at hfresh
      exact hfresh (fsSize_some_mem fs p sz hsz)
    have hd : rotateDate today ⟨some today, some p, true, some T⟩ =
        ⟨some today, some p, true, some T⟩ := by
      simp [rotateDate]
    have hs : rotateSize fs ⟨some today, some p, true, some T⟩ =
        ⟨some today, none, false, some T⟩ := by
      simp [rotateSize, hsz, hT]
    simp [open_file, hd, hs, hfresh, hne]
  · intro s fs today hmax hopen hdate
    obtain ⟨d, cp, fo, mx⟩ := s
    simp only at hmax hopen hdate
    subst hmax hopen hdate
    have hd : rotateDate today ⟨some today, cp, true, none⟩ =
        ⟨some today, cp, true, none⟩ := by
      simp [rotateDate]
    have hs : rotateSize fs ⟨some today, cp, true, none⟩ =
        ⟨some today, cp, true, none⟩ := by
      cases cp <;> simp [rotateSize]
    simp [open_file, hd, hs]

/-- Witness for C7: today's base file has size 7, the threshold is 5, so the
sink rotates to the first sequence file. -/

theorem size_rotation_spec_witness :
    fsSize [(l3BaseName ['d'], 7)] (l3BaseName ['d']) = some 7 ∧
    (open_file ['d'] [(l3BaseName ['d'], 7)]
      ⟨some ['d'], some (l3BaseName ['d']), true, some 5⟩).currentPath =
      some (next_path_for_date (fsPaths [(l3BaseName ['d'], 7)]) ['d']) :=
  ⟨by decide,
    (size_rotation_spec.1 ⟨some ['d'], some (l3BaseName ['d']), true, some 5⟩
      [(l3BaseName ['d'], 7)] ['d'] (l3BaseName ['d']) 5 7
      rfl rfl rfl rfl (by decide) (by decide)).2.2.1⟩

/- ------------------------------------------------------------------ -/

/- JSON lemmas: strings round-trip                                     -/

/- ------------------------------------------------------------------ -/

theorem skipWs_cons_not {c : Char} (l : List Char) (h : isJsonWs c = false) :
    skipWs (c :: l) = c :: l := by
  simp [skipWs, h]

theorem hexVal_zero : hexVal '0' = some 0 := rfl

theorem hexVal_digitChar (m : Nat) (h : m < 16) : hexVal (Nat.digitChar m) = some m := by
  interval_cases m <;> decide

theorem parseStringBody_escape (s : List Char) :
    ∀ F rest, s.length < F →
      parseStringBody F (escapeList s ++ '"' :: rest) = some (s, rest) := by
  induction s with
  | nil =>
    intro F rest hF
    obtain ⟨G, rfl⟩ : ∃ G, F = G + 1 := ⟨F - 1, by omega⟩
    rfl
  | cons c s ih =>
    intro F rest hF
    obtain ⟨G, rfl⟩ : ∃ G, F = G + 1 := ⟨F - 1, by omega⟩
    have hG : s.length < G := by
      have : (c :: s).length = s.length + 1 := rfl
      omega
    rw [show escapeList (c :: s) = escapeChar c ++ escapeList s from rfl, List.append_assoc]
    by_cases h1 : c = '"'
    · subst h1
      simp [escapeChar, parseStringBody, escCharOf, ih G rest hG]
    · by_cases h2 : c = '\\'
      · subst h2
        simp [escapeChar, parseStringBody, escCharOf, ih G rest hG]
      · by_cases h3 : c = '\n'
        · subst h3
          simp [escapeChar, parseStringBody, escCharOf, ih G rest hG]
        · by_cases h4 : c = '\t'
          · subst h4
            simp [escapeChar, parseStringBody, escCharOf, ih G rest hG]
          · by_cases h5 : c = '\r'
            · subst h5
              simp [escapeChar, parseStringBody, escCharOf, ih G rest hG]
            · by_cases h6 : c = Char.ofNat 8
              · subst h6
                simp [escapeChar, parseStringBody, escCharOf, ih G rest hG]
              · by_cases h7 : c = Char.ofNat 12
                · subst h7
                  simp [escapeChar, parseStringBody, escCharOf, ih G rest hG]
                · by_cases h8 : c.toNat < 32
                  · have he : escapeChar c = ['\\', 'u', '0', '0',
                        Nat.digitChar (c.toNat / 16), Nat.digitChar (c.toNat % 16)] := by
                      simp [escapeChar, h1, h2, h3, h4, h5, h6, h7, h8]
                    rw [he]
                    have h16a : c.toNat / 16 < 16 := by omega
                    have h16b : c.toNat % 16 < 16 := by omega
                    simp only [List.cons_append, List.nil_append]
                    simp only [parseStringBody]
                    simp only [hexVal_zero, hexVal_digitChar _ h16a, hexVal_digitChar _ h16b]
                    rw [ih G rest hG]
                    have harg : 4096 * 0 + 256 * 0 + 16 * (c.toNat / 16) + c.toNat % 16 =
                        c.toNat := by omega
                    rw [harg, Char.ofNat_toNat]
                    simp
                  · have he : escapeChar c = [c] := by
                      simp [escapeChar, h1, h2, h3, h4, h5, h6, h7, h8]
                    rw [he]
                    simp only [List.cons_append, List.nil_append]
                    simp only [parseStringBody]
                    rw [if_neg h1, if_neg h2, if_neg h8]
                    rw [ih G rest hG]

/- ------------------------------------------------------------------ -/

/- JSON lemmas: numbers round-trip                                     -/

/- ------------------------------------------------------------------ -/

theorem isDigitCh_digitChar (d : Nat) (h : d < 10) : isDigitCh (Nat.digitChar d) = true := by
  interval_cases d <;> decide

theorem digitChar_ne_zero (d : Nat) (h1 : d < 10) (h2 : d ≠ 0) : Nat.digitChar d ≠ '0' := by
  interval_cases d
  · exact absurd rfl h2
  all_goals decide

theorem takeDigits_all (l : List Char) (hl : ∀ c ∈ l, isDigitCh c = true) :
    ∀ rest, noDigitStart rest = true → takeDigits (l ++ rest) = (l, rest) := by
  induction l with
  | nil =>
    intro rest hrest
    cases rest with
    | nil => rfl
    | cons c r =>
      have hc : isDigitCh c = false := by
        have hb : (!isDigitCh c) = true := hrest
        cases h : isDigitCh c
        · rfl
        · rw [h] at hb
          exact absurd hb (by decide)
      simp [takeDigits, hc]
  | cons c l ih =>
    intro rest hrest
    have hc : isDigitCh c = true := hl c (List.mem_cons_self _ _)
    simp [takeDigits, hc, ih (fun x hx => hl x (List.mem_cons_of_mem _ hx)) rest hrest]

theorem natChars_pos (m : Nat) (hm : m ≠ 0) :
    ∃ (d : Nat) (tl : List Nat),
      natChars m = Nat.digitChar d :: List.map Nat.digitChar tl ∧ d < 10 ∧ d ≠ 0 ∧
      ∀ x ∈ tl, x < 10 := by
  have hds : Nat.digits 10 m ≠ [] := Nat.digits_ne_nil_iff_ne_zero.mpr hm
  have hrev : (Nat.digits 10 m).reverse ≠ [] := by simpa using hds
  obtain ⟨d, tl, hcons⟩ := List.exists_cons_of_ne_nil hrev
  refine ⟨d, tl, ?_, ?_, ?_, ?_⟩
  · rw [show natChars m = natCharsAux m m by simp [natChars, hm],
      natCharsAux_eq_digits m m (le_refl m), hcons, List.map_cons]
  · have hd : d ∈ Nat.digits 10 m := by
      rw [← List.mem_reverse, hcons]
      exact List.mem_cons_self _ _
    exact Nat.digits_lt_base (by norm_num) hd
  · have hlast : (Nat.digits 10 m).getLast? = some d := by
      rw [← List.head?_reverse, hcons]
      rfl
    have hne := Nat.getLast_digit_ne_zero 10 hm
    rw [List.getLast?_eq_getLast _ hds] at hlast
    have : (Nat.digits 10 m).getLast hds = d := by
      injection hlast
    rw [← this]
    exact hne
  · intro x hx
    have : x ∈ Nat.digits 10 m := by
      rw [← List.mem_reverse, hcons]
      exact List.mem_cons_of_mem _ hx
    exact Nat.digits_lt_base (by norm_num) this

theorem parseNatNum_natChars (m : Nat) (rest : List Char) (hrest : noDigitStart rest = true) :
    parseNatNum (natChars m ++ rest) = some (m, rest) := by
  by_cases hm : m = 0
  · subst hm
    rw [show natChars 0 = ['0'] from rfl]
    simp [parseNatNum, hrest]
  · obtain ⟨d, tl, hnat, hd10, hd0, htl⟩ := natChars_pos m hm
    have hval := natChars_val m
    rw [hnat, charsValAux_cons, digitValCh_digitChar d hd10] at hval
    rw [hnat]
    simp only [List.cons_append]
    simp only [parseNatNum]
    rw [if_neg (digitChar_ne_zero d hd10 hd0), if_pos (isDigitCh_digitChar d hd10)]
    rw [takeDigits_all (tl.map Nat.digitChar)
      (fun c hc => by
        obtain ⟨x, hx, rfl⟩ := List.mem_map.mp hc
        exact isDigitCh_digitChar x (htl x hx)) rest hrest]
    rw [digitValCh_digitChar d hd10]
    simpa using hval

theorem isDigitCh_ne_minus {c : Char} (h : isDigitCh c = true) : ¬ c = '-' := by
  intro he
  subst he
  exact absurd h (by decide)

theorem parseNumber_intChars (n : Int) (rest : List Char) (hrest : noDigitStart rest = true) :
    parseNumber (intChars n ++ rest) = some (Json.num n, rest) := by
  by_cases hn : n < 0
  · rw [show intChars n = '-' :: natChars n.natAbs by simp [intChars, hn]]
    simp only [List.cons_append]
    simp only [parseNumber]
    rw [if_pos trivial, parseNatNum_natChars n.natAbs rest hrest]
    have hval : -((n.natAbs : Nat) : Int) = n := by omega
    simp [hval]
    rw [abs_of_neg hn, neg_neg]
  · have hpos : intChars n = natChars n.natAbs := by simp [intChars, hn]
    have hval : ((n.natAbs : Nat) : Int) = n := by omega
    by_cases hz : n.natAbs = 0
    · rw [hpos, hz, show natChars 0 = ['0'] from rfl]
      simp only [List.cons_append, List.nil_append]
      simp only [parseNumber]
      rw [if_neg (by decide)]
      rw [show ('0' :: rest) = natChars 0 ++ rest from rfl,
        parseNatNum_natChars 0 rest hrest]
      have : n = 0 := by omega
      simp [this]
    · obtain ⟨d, tl, hnat, hd10, hd0, htl⟩ := natChars_pos n.natAbs hz
      rw [hpos, hnat]
      simp only [List.cons_append]
      simp only [parseNumber]
      rw [if_neg (isDigitCh_ne_minus (isDigitCh_digitChar d hd10))]
      rw [show Nat.digitChar d :: (List.map Nat.digitChar tl ++ rest) =
        (Nat.digitChar d :: List.map Nat.digitChar tl) ++ rest from rfl, ← hnat,
        parseNatNum_natChars n.natAbs rest hrest]
      simp [hval]

/- ------------------------------------------------------------------ -/

/- JSON lemmas: member lists, keys, upsert                             -/

/- ------------------------------------------------------------------ -/

theorem jsonMembers_spine_ind {P : JsonMembers → Prop} (h0 : P JsonMembers.nil)
    (h1 : ∀ k v rest, P rest → P (JsonMembers.cons k v rest)) : ∀ m, P m
  | JsonMembers.nil => h0
  | JsonMembers.cons k v rest => h1 k v rest (jsonMembers_spine_ind h0 h1 rest)

theorem appendM_nil : ∀ acc, appendM acc JsonMembers.nil = acc := by
  apply jsonMembers_spine_ind
  · simp [appendM]
  · intro k v rest ih
    simp [appendM, ih]

theorem appendM_cons_mid (k : List Char) (v : Json) (kvs : JsonMembers) :
    ∀ acc, appendM (appendM acc (JsonMembers.cons k v JsonMembers.nil)) kvs =
      appendM acc (JsonMembers.cons k v kvs) := by
  apply jsonMembers_spine_ind
  · simp [appendM]
  · intro k0 v0 rest ih
    simp [appendM, ih]

theorem memKeyM_appendM (j : List Char) (b : JsonMembers) :
    ∀ a, memKeyM j (appendM a b) = (memKeyM j a || memKeyM j b) := by
  apply jsonMembers_spine_ind
  · simp [appendM, memKeyM]
  · intro k v rest ih
    simp [appendM, memKeyM, ih, Bool.or_assoc]

theorem upsertM_not_mem (k : List Char) (v : Json) :
    ∀ acc, memKeyM k acc = false →
      upsertM k v acc = appendM acc (JsonMembers.cons k v JsonMembers.nil) := by
  apply jsonMembers_spine_ind
  · intro _
    simp [upsertM, appendM]
  · intro k0 v0 rest ih hmem
    have hmem2 : (decide (k0 = k) || memKeyM k rest) = false := hmem
    have hk0 : ¬ k0 = k := by
      intro he
      rw [he] at hmem2
      simp at hmem2
    have hrest : memKeyM k rest = false := by
      rcases Bool.or_eq_false_iff.mp hmem2 with ⟨_, h⟩
      exact h
    simp [upsertM, hk0, appendM, ih hrest]

theorem memKeyM_upsertM (k j : List Char) (v : Json) :
    ∀ acc, memKeyM j (upsertM k v acc) = (memKeyM j acc || decide (k = j)) := by
  apply jsonMembers_spine_ind
  · simp [upsertM, memKeyM]
  · intro k0 v0 rest ih
    by_cases hk : k0 = k
    · subst hk
      simp [upsertM, memKeyM]
      by_cases hj : k0 = j <;> simp [hj]
    · simp [upsertM, hk, memKeyM, ih, Bool.or_assoc]

theorem upsertM_distinct (k : List Char) (v : Json) :
    ∀ acc, keysDistinctM acc = true → keysDistinctM (upsertM k v acc) = true := by
  apply jsonMembers_spine_ind
  · intro _
    simp [upsertM, keysDistinctM, memKeyM]
  · intro k0 v0 rest ih hdist
    have h1 : memKeyM k0 rest = false := by
      have := (Bool.and_eq_true _ _).mp hdist
      simpa using this.1
    have h2 : keysDistinctM rest = true := ((Bool.and_eq_true _ _).mp hdist).2
    by_cases hk : k0 = k
    · subst hk
      simp [upsertM, keysDistinctM, h1, h2]
    · have h3 : memKeyM k0 (upsertM k v rest) = false := by
        rw [memKeyM_upsertM k k0 v rest, h1]
        simp
        intro he
        exact hk he.symm
      simp [upsertM, hk, keysDistinctM, h3, ih h2]

theorem upsertM_wfM (k : List Char) (v : Json) (hv : wfJ v = true) :
    ∀ acc, wfM acc = true → wfM (upsertM k v acc) = true := by
  apply jsonMembers_spine_ind
  · intro _
    simp [upsertM, wfM, hv]
  · intro k0 v0 rest ih hwf
    have h1 : wfJ v0 = true := ((Bool.and_eq_true _ _).mp hwf).1
    have h2 : wfM rest = true := ((Bool.and_eq_true _ _).mp hwf).2
    by_cases hk : k0 = k
    · subst hk
      simp [upsertM, wfM, hv, h2]
    · simp [upsertM, hk, wfM, h1, ih h2]

/- ------------------------------------------------------------------ -/

/- JSON lemmas: first characters and stepping                          -/

/- ------------------------------------------------------------------ -/

theorem escapeChar_length_pos (c : Char) : 1 ≤ (escapeChar c).length := by
  unfold escapeChar
  split_ifs <;> simp

theorem escapeList_length_ge (s : List Char) : s.length ≤ (escapeList s).length := by
  induction s with
  | nil => simp [escapeList]
  | cons c s ih =>
    have := escapeChar_length_pos c
    simp only [escapeList, List.length_append, List.length_cons]
    omega

theorem digit_not_special {c : Char} (h : c = '-' ∨ isDigitCh c = true) :
    isJsonWs c = false ∧ ¬ c = 'n' ∧ ¬ c = 't' ∧ ¬ c = 'f' ∧ ¬ c = '"' ∧ ¬ c = '[' ∧
    ¬ c = Char.ofNat 123 ∧ ¬ c = ']' := by
  rcases h with h | h
  · subst h
    decide
  · refine ⟨?_, ?_, ?_, ?_, ?_, ?_, ?_, ?_⟩
    · cases hw : isJsonWs c
      · rfl
      · exfalso
        have hd : (c = ' ' ∨ c = '\t' ∨ c = '\n' ∨ c = '\r') := by
          simpa [isJsonWs, or_assoc] using hw
        rcases hd with h1 | h1 | h1 | h1 <;> (subst h1; exact absurd h (by decide))
    all_goals (intro he; subst he; exact absurd h (by decide))

theorem intChars_head (n : Int) :
    ∃ c l, intChars n = c :: l ∧ (c = '-' ∨ isDigitCh c = true) := by
  by_cases hn : n < 0
  · exact ⟨'-', natChars n.natAbs, by simp [intChars, hn], Or.inl rfl⟩
  · by_cases hz : n.natAbs = 0
    · refine ⟨'0', [], ?_, Or.inr (by decide)⟩
      simp [intChars, hn, hz, natChars]
    · obtain ⟨d, tl, hnat, hd10, _, _⟩ := natChars_pos n.natAbs hz
      exact ⟨Nat.digitChar d, List.map Nat.digitChar tl, by simp [intChars, hn, hnat],
        Or.inr (isDigitCh_digitChar d hd10)⟩

theorem dumpsVal_head (v : Json) :
    ∃ c l, dumpsVal v = c :: l ∧ isJsonWs c = false ∧ ¬ c = ']' := by
  cases v with
  | null => exact ⟨'n', _, rfl, by decide⟩
  | bool b => cases b with
    | true => exact ⟨'t', _, rfl, by decide⟩
    | false => exact ⟨'f', _, rfl, by decide⟩
  | num n =>
    obtain ⟨c, l, hd, hc⟩ := intChars_head n
    obtain ⟨hws, _, _, _, _, _, _, hne⟩ := digit_not_special hc
    exact ⟨c, l, by rw [show dumpsVal (Json.num n) = intChars n from rfl, hd], hws, hne⟩
  | str s => exact ⟨'"', _, rfl, by decide⟩
  | arr vs => cases vs with
    | nil => exact ⟨'[', _, rfl, by decide⟩
    | cons v vs => exact ⟨'[', _, rfl, by decide⟩
  | obj kvs => cases kvs with
    | nil => exact ⟨Char.ofNat 123, _, rfl, by decide⟩
    | cons k v kvs => exact ⟨Char.ofNat 123, _, rfl, by decide⟩

theorem parseVal_ws_cons (F : Nat) {c : Char} (l : List Char) (h : isJsonWs c = true) :
    parseVal (F + 1) (c :: l) = parseVal (F + 1) l := by
  simp only [parseVal]
  rw [show skipWs (c :: l) = skipWs l from by simp [skipWs, h]]

theorem parseVal_num_head (F : Nat) {c : Char} (l : List Char) (hws : isJsonWs c = false)
    (h1 : ¬ c = 'n') (h2 : ¬ c = 't') (h3 : ¬ c = 'f') (h4 : ¬ c = '"') (h5 : ¬ c = '[')
    (h6 : ¬ c = Char.ofNat 123) :
    parseVal (F + 1) (c :: l) = parseNumber (c :: l) := by
  simp only [parseVal]
  rw [skipWs_cons_not l hws]
  dsimp only
  rw [if_neg h1, if_neg h2, if_neg h3, if_neg h4, if_neg h5, if_neg h6]

theorem noDigitStart_arrSep (vs : JsonList) (rest : List Char) :
    noDigitStart (dumpsArrRest vs ++ ']' :: rest) = true := by
  cases vs with
  | nil =>
    rw [show dumpsArrRest JsonList.nil = [] from by simp [dumpsArrRest], List.nil_append]
    rfl
  | cons v vs =>
    rw [show dumpsArrRest (JsonList.cons v vs) = ',' :: ' ' :: (dumpsVal v ++ dumpsArrRest vs)
      from by simp [dumpsArrRest]]
    rfl

theorem parseVal_null (F : Nat) (rest : List Char) :
    parseVal (F + 1) ('n' :: 'u' :: 'l' :: 'l' :: rest) = some (Json.null, rest) := rfl

theorem parseVal_true (F : Nat) (rest : List Char) :
    parseVal (F + 1) ('t' :: 'r' :: 'u' :: 'e' :: rest) = some (Json.bool true, rest) := rfl

theorem parseVal_false (F : Nat) (rest : List Char) :
    parseVal (F + 1) ('f' :: 'a' :: 'l' :: 's' :: 'e' :: rest) =
      some (Json.bool false, rest) := rfl

theorem parseVal_arrNil (F : Nat) (rest : List Char) :
    parseVal (F + 1) ('[' :: ']' :: rest) = some (Json.arr JsonList.nil, rest) := rfl

theorem parseVal_objNil (F : Nat) (rest : List Char) :
    parseVal (F + 1) (Char.ofNat 123 :: Char.ofNat 125 :: rest) =
      some (Json.obj JsonMembers.nil, rest) := rfl

theorem parseVal_quote (F : Nat) (l : List Char) :
    parseVal (F + 1) ('"' :: l) =
      (match parseStringBody (l.length + 1) l with
       | some (s, rest2) => some (Json.str s, rest2)
       | none => none) := rfl

theorem parseVal_lbracket (F : Nat) (l : List Char) :
    parseVal (F + 1) ('[' :: l) =
      (match skipWs l with
       | [] => none
       | c2 :: rest2 =>
         if c2 = ']' then some (Json.arr JsonList.nil, rest2)
         else
           match parseVal F l with
           | some (v, rest3) =>
             (match parseArrRest F rest3 with
              | some (vs, rest4) => some (Json.arr (JsonList.cons v vs), rest4)
              | none => none)
           | none => none) := rfl

theorem parseVal_lbrace (F : Nat) (l : List Char) :
    parseVal (F + 1) (Char.ofNat 123 :: l) =
      (match skipWs l with
       | [] => none
       | c2 :: rest2 =>
         if c2 = Char.ofNat 125 then some (Json.obj JsonMembers.nil, rest2)
         else if c2 = '"' then
           match parseStringBody (rest2.length + 1) rest2 with
           | some (k, rest3) =>
             (match skipWs rest3 with
              | [] => none
              | c3 :: rest4 =>
                if c3 = ':' then
                  match parseVal F rest4 with
                  | some (v, rest5) =>
                    (match parseObjRest F rest5 (upsertM k v JsonMembers.nil) with
                     | some (kvs, rest6) => some (Json.obj kvs, rest6)
                     | none => none)
                  | none => none
                else none)
           | none => none
         else none) := rfl

theorem parseArrRest_rbracket (F : Nat) (l : List Char) :
    parseArrRest (F + 1) (']' :: l) = some (JsonList.nil, l) := rfl

theorem parseArrRest_comma (F : Nat) (l : List Char) :
    parseArrRest (F + 1) (',' :: l) =
      (match parseVal F l with
       | some (v, rest2) =>
         (match parseArrRest F rest2 with
          | some (vs, rest3) => some (JsonList.cons v vs, rest3)
          | none => none)
       | none => none) := rfl

theorem parseObjRest_rbrace (F : Nat) (l : List Char) (acc : JsonMembers) :
    parseObjRest (F + 1) (Char.ofNat 125 :: l) acc = some (acc, l) := rfl

theorem parseObjRest_comma (F : Nat) (l : List Char) (acc : JsonMembers) :
    parseObjRest (F + 1) (',' :: l) acc =
      (match skipWs l with
       | [] => none
       | c2 :: rest2 =>
         if c2 = '"' then
           match parseStringBody (rest2.length + 1) rest2 with
           | some (k, rest3) =>
             (match skipWs rest3 with
              | [] => none
              | c3 :: rest4 =>
                if c3 = ':' then
                  match parseVal F rest4 with
                  | some (v, rest5) => parseObjRest F rest5 (upsertM k v acc)
                  | none => none
                else none)
           | none => none
         else none) := rfl

theorem one_le_pneed (v : Json) : 1 ≤ pneed v := by
  cases v with
  | null => simp [pneed]
  | bool b => simp [pneed]
  | num n => simp [pneed]
  | str s => simp [pneed]
  | arr vs => cases vs <;> simp [pneed]
  | obj kvs => cases kvs <;> simp [pneed]

theorem one_le_pneedL (vs : JsonList) : 1 ≤ pneedL vs := by
  cases vs <;> simp [pneedL]

theorem one_le_pneedM (kvs : JsonMembers) : 1 ≤ pneedM kvs := by
  cases kvs <;> simp [pneedM]

theorem noDigitStart_objSep (kvs : JsonMembers) (rest : List Char) :
    noDigitStart (dumpsObjRest kvs ++ Char.ofNat 125 :: rest) = true := by
  cases kvs with
  | nil =>
    rw [show dumpsObjRest JsonMembers.nil = [] from by simp [dumpsObjRest], List.nil_append]
    rfl
  | cons k v kvs =>
    rw [show dumpsObjRest (JsonMembers.cons k v kvs) = ',' :: ' ' :: ('"' :: (escapeList k ++
      ['"', ':', ' '] ++ dumpsVal v ++ dumpsObjRest kvs)) from by simp [dumpsObjRest]]
    rfl

theorem parse_dumps (F : Nat) :
    (∀ v rest, pneed v ≤ F → wfJ v = true → noDigitStart rest = true →
      parseVal F (dumpsVal v ++ rest) = some (v, rest)) ∧
    (∀ vs rest, pneedL vs ≤ F → wfL vs = true →
      parseArrRest F (dumpsArrRest vs ++ ']' :: rest) = some (vs, rest)) ∧
    (∀ kvs rest acc, pneedM kvs ≤ F → wfM kvs = true → keysDistinctM kvs = true →
      (∀ j, memKeyM j kvs = true → memKeyM j acc = false) →
      parseObjRest F (dumpsObjRest kvs ++ Char.ofNat 125 :: rest) acc =
        some (appendM acc kvs, rest)) := by
  induction F with
  | zero =>
    refine ⟨?_, ?_, ?_⟩
    · intro v rest hp _ _
      exact absurd hp (by have := one_le_pneed v; omega)
    · intro vs rest hp _
      exact absurd hp (by have := one_le_pneedL vs; omega)
    · intro kvs rest acc hp _ _ _
      exact absurd hp (by have := one_le_pneedM kvs; omega)
  | succ F ih =>
    obtain ⟨ih1, ih2, ih3⟩ := ih
    refine ⟨?_, ?_, ?_⟩
    · intro v rest hp hwf hrest
      cases v with
      | null => exact parseVal_null F rest
      | bool b =>
        cases b with
        | true => exact parseVal_true F rest
        | false => exact parseVal_false F rest
      | num n =>
        obtain ⟨c, l, hd, hc⟩ := intChars_head n
        obtain ⟨hws, h1, h2, h3, h4, h5, h6, _⟩ := digit_not_special hc
        rw [show dumpsVal (Json.num n) = intChars n from rfl, hd, List.cons_append,
          parseVal_num_head F (l ++ rest) hws h1 h2 h3 h4 h5 h6,
          ← List.cons_append, ← hd, parseNumber_intChars n rest hrest]
      | str s =>
        rw [show dumpsVal (Json.str s) = '"' :: (escapeList s ++ ['"']) from rfl,
          List.cons_append, List.append_assoc,
          show (['"'] ++ rest : List Char) = '"' :: rest from rfl, parseVal_quote]
        have hlen : s.length < (escapeList s ++ '"' :: rest).length + 1 := by
          have := escapeList_length_ge s
          simp only [List.length_append, List.length_cons]
          omega
        rw [parseStringBody_escape s _ rest hlen]
      | arr vs =>
        cases vs with
        | nil => exact parseVal_arrNil F rest
        | cons v vs =>
          have hpe : pneed (Json.arr (JsonList.cons v vs)) =
              1 + max (pneed v) (pneedL vs) := by simp [pneed]
          rw [hpe] at hp
          have hwf2 : wfJ v = true ∧ wfL vs = true := by
            simpa [wfJ, wfL, Bool.and_eq_true] using hwf
          have hshape : dumpsVal (Json.arr (JsonList.cons v vs)) ++ rest =
              '[' :: (dumpsVal v ++ (dumpsArrRest vs ++ ']' :: rest)) := by
            rw [show dumpsVal (Json.arr (JsonList.cons v vs)) =
              '[' :: (dumpsVal v ++ dumpsArrRest vs ++ [']']) from by simp [dumpsVal]]
            simp [List.append_assoc]
          rw [hshape, parseVal_lbracket]
          obtain ⟨ch, cl, hch, hwsf, hne⟩ := dumpsVal_head v
          rw [hch, List.cons_append, skipWs_cons_not _ hwsf]
          dsimp only
          rw [if_neg hne, ← List.cons_append, ← hch,
            ih1 v _ (by omega) hwf2.1 (noDigitStart_arrSep vs rest)]
          dsimp only
          rw [ih2 vs rest (by omega) hwf2.2]
      | obj kvs =>
        cases kvs with
        | nil => exact parseVal_objNil F rest
        | cons k v kvs =>
          have hpe : pneed (Json.obj (JsonMembers.cons k v kvs)) =
              1 + max (pneed v) (pneedM kvs) := by simp [pneed]
          rw [hpe] at hp
          have hwf2 : (memKeyM k kvs = false ∧ keysDistinctM kvs = true) ∧
              wfJ v = true ∧ wfM kvs = true := by
            simpa [wfJ, wfM, keysDistinctM, Bool.and_eq_true] using hwf
          have hshape : dumpsVal (Json.obj (JsonMembers.cons k v kvs)) ++ rest =
              Char.ofNat 123 :: ('"' :: (escapeList k ++ '"' :: ':' :: ' ' ::
                (dumpsVal v ++ (dumpsObjRest kvs ++ Char.ofNat 125 :: rest)))) := by
            rw [show dumpsVal (Json.obj (JsonMembers.cons k v kvs)) =
              Char.ofNat 123 :: ('"' :: (escapeList k ++ ['"', ':', ' '] ++ dumpsVal v ++
                dumpsObjRest kvs ++ [Char.ofNat 125])) from by simp [dumpsVal]]
            simp [List.append_assoc]
          rw [hshape, parseVal_lbrace, skipWs_cons_not _ (by decide)]
          dsimp only
          rw [if_neg (show ¬('"' : Char) = Char.ofNat 125 by decide),
            if_pos (show ('"' : Char) = '"' from rfl)]
          have hlen : k.length < (escapeList k ++ '"' :: ':' :: ' ' ::
              (dumpsVal v ++ (dumpsObjRest kvs ++ Char.ofNat 125 :: rest))).length + 1 := by
            have := escapeList_length_ge k
            simp only [List.length_append, List.length_cons]
            omega
          rw [parseStringBody_escape k _ _ hlen]
          dsimp only
          rw [skipWs_cons_not _ (by decide)]
          dsimp only
          rw [if_pos (show (':' : Char) = ':' from rfl)]
          have hv1 := one_le_pneed v
          obtain ⟨G, rfl⟩ : ∃ G, F = G + 1 := ⟨F - 1, by omega⟩
          rw [parseVal_ws_cons G _ (by decide),
            ih1 v _ (by omega) hwf2.2.1 (noDigitStart_objSep kvs rest)]
          dsimp only
          rw [show upsertM k v JsonMembers.nil = JsonMembers.cons k v JsonMembers.nil from
            by simp [upsertM]]
          have hdisj : ∀ j, memKeyM j kvs = true →
              memKeyM j (JsonMembers.cons k v JsonMembers.nil) = false := by
            intro j hj
            have hkj : ¬ k = j := by
              intro he
              subst he
              rw [hwf2.1.1] at hj
              exact absurd hj (by simp)
            simp [memKeyM, hkj]
          rw [ih3 kvs rest _ (by omega) hwf2.2.2 hwf2.1.2 hdisj]
          dsimp only
          rw [show appendM (JsonMembers.cons k v JsonMembers.nil) kvs =
            JsonMembers.cons k v kvs from by simp [appendM]]
    · intro vs rest hp hwf
      cases vs with
      | nil => exact parseArrRest_rbracket F rest
      | cons v vs =>
        have hpe : pneedL (JsonList.cons v vs) = 1 + max (pneed v) (pneedL vs) := by
          simp [pneedL]
        rw [hpe] at hp
        have hwf2 : wfJ v = true ∧ wfL vs = true := by
          simpa [wfL, Bool.and_eq_true] using hwf
        have hshape : dumpsArrRest (JsonList.cons v vs) ++ ']' :: rest =
            ',' :: ' ' :: (dumpsVal v ++ (dumpsArrRest vs ++ ']' :: rest)) := by
          rw [show dumpsArrRest (JsonList.cons v vs) =
            ',' :: ' ' :: (dumpsVal v ++ dumpsArrRest vs) from by simp [dumpsArrRest]]
          simp [List.append_assoc]
        rw [hshape, parseArrRest_comma]
        have hv1 := one_le_pneed v
        obtain ⟨G, rfl⟩ : ∃ G, F = G + 1 := ⟨F - 1, by omega⟩
        rw [parseVal_ws_cons G _ (by decide),
          ih1 v _ (by omega) hwf2.1 (noDigitStart_arrSep vs rest)]
        dsimp only
        rw [ih2 vs rest (by omega) hwf2.2]
    · intro kvs rest acc hp hwf hdist hdisj
      cases kvs with
      | nil =>
        rw [show dumpsObjRest JsonMembers.nil = ([] : List Char) from by simp [dumpsObjRest],
          List.nil_append, parseObjRest_rbrace, appendM_nil]
      | cons k v kvs =>
        have hpe : pneedM (JsonMembers.cons k v kvs) = 1 + max (pneed v) (pneedM kvs) := by
          simp [pneedM]
        rw [hpe] at hp
        have hwf2 : wfJ v = true ∧ wfM kvs = true := by
          simpa [wfM, Bool.and_eq_true] using hwf
        have hdist2 : memKeyM k kvs = false ∧ keysDistinctM kvs = true := by
          simpa [keysDistinctM, Bool.and_eq_true] using hdist
        have hkacc : memKeyM k acc = false := hdisj k (by simp [memKeyM])
        have hshape : dumpsObjRest (JsonMembers.cons k v kvs) ++ Char.ofNat 125 :: rest =
            ',' :: ' ' :: ('"' :: (escapeList k ++ '"' :: ':' :: ' ' ::
              (dumpsVal v ++ (dumpsObjRest kvs ++ Char.ofNat 125 :: rest)))) := by
          rw [show dumpsObjRest (JsonMembers.cons k v kvs) =
            ',' :: ' ' :: ('"' :: (escapeList k ++ ['"', ':', ' '] ++ dumpsVal v ++
              dumpsObjRest kvs)) from by simp [dumpsObjRest]]
          simp [List.append_assoc]
        rw [hshape, parseObjRest_comma]
        rw [show skipWs (' ' :: '"' :: (escapeList k ++ '"' :: ':' :: ' ' ::
            (dumpsVal v ++ (dumpsObjRest kvs ++ Char.ofNat 125 :: rest)))) =
          '"' :: (escapeList k ++ '"' :: ':' :: ' ' ::
            (dumpsVal v ++ (dumpsObjRest kvs ++ Char.ofNat 125 :: rest))) from
          by simp [skipWs, isJsonWs]]
        dsimp only
        rw [if_pos (show ('"' : Char) = '"' from rfl)]
        have hlen : k.length < (escapeList k ++ '"' :: ':' :: ' ' ::
            (dumpsVal v ++ (dumpsObjRest kvs ++ Char.ofNat 125 :: rest))).length + 1 := by
          have := escapeList_length_ge k
          simp only [List.length_append, List.length_cons]
          omega
        rw [parseStringBody_escape k _ _ hlen]
        dsimp only
        rw [skipWs_cons_not _ (by decide)]
        dsimp only
        rw [if_pos (show (':' : Char) = ':' from rfl)]
        have hv1 := one_le_pneed v
        obtain ⟨G, rfl⟩ : ∃ G, F = G + 1 := ⟨F - 1, by omega⟩
        rw [parseVal_ws_cons G _ (by decide),
          ih1 v _ (by omega) hwf2.1 (noDigitStart_objSep kvs rest)]
        dsimp only
        rw [upsertM_not_mem k v acc hkacc]
        have hdisj2 : ∀ j, memKeyM j kvs = true →
            memKeyM j (appendM acc (JsonMembers.cons k v JsonMembers.nil)) = false := by
          intro j hj
          rw [memKeyM_appendM]
          have hja : memKeyM j acc = false := hdisj j (by simp [memKeyM, hj])
          have hkj : ¬ k = j := by
            intro he
            subst he
            rw [hdist2.1] at hj
            exact absurd hj (by simp)
          simp [hja, memKeyM, hkj]
        rw [ih3 kvs rest _ (by omega) hwf2.2 hdist2.2 hdisj2, appendM_cons_mid]

/- ------------------------------------------------------------------ -/

/- JSON lemmas: parsed values are well-formed                          -/

/- ------------------------------------------------------------------ -/

theorem parseNumber_wf (cs : List Char) (p : Json × List Char) (h : parseNumber cs = some p) :
    wfJ p.1 = true := by
  cases cs with
  | nil => exact absurd h (by simp [parseNumber])
  | cons c rest =>
    simp only [parseNumber] at h
    split at h
    · split at h
      · simp only [Option.some.injEq] at h
        rw [← h]
        rfl
      · exact absurd h (by simp)
    · split at h
      · simp only [Option.some.injEq] at h
        rw [← h]
        rfl
      · exact absurd h (by simp)

theorem parse_wf (F : Nat) :
    (∀ cs v rest, parseVal F cs = some (v, rest) → wfJ v = true) ∧
    (∀ cs vs rest, parseArrRest F cs = some (vs, rest) → wfL vs = true) ∧
    (∀ cs acc kvs rest, parseObjRest F cs acc = some (kvs, rest) →
      keysDistinctM acc = true → wfM acc = true →
      keysDistinctM kvs = true ∧ wfM kvs = true) := by
  induction F with
  | zero =>
    refine ⟨?_, ?_, ?_⟩
    · intro cs v rest h
      exact absurd h (by simp [parseVal])
    · intro cs vs rest h
      exact absurd h (by simp [parseArrRest])
    · intro cs acc kvs rest h
      exact absurd h (by simp [parseObjRest])
  | succ F ih =>
    obtain ⟨ih1, ih2, ih3⟩ := ih
    refine ⟨?_, ?_, ?_⟩
    · intro cs v rest h
      simp only [parseVal] at h
      split at h
      · exact absurd h (by simp)
      · split at h
        · -- c = 'n'
          split at h
          · simp only [Option.some.injEq, Prod.mk.injEq] at h
            rw [← h.1]
            rfl
          · exact absurd h (by simp)
        · split at h
          · -- c = 't'
            split at h
            · simp only [Option.some.injEq, Prod.mk.injEq] at h
              rw [← h.1]
              rfl
            · exact absurd h (by simp)
          · split at h
            · -- c = 'f'
              split at h
              · simp only [Option.some.injEq, Prod.mk.injEq] at h
                rw [← h.1]
                rfl
              · exact absurd h (by simp)
            · split at h
              · -- c = quote: string
                split at h
                · simp only [Option.some.injEq, Prod.mk.injEq] at h
                  rw [← h.1]
                  rfl
                · exact absurd h (by simp)
              · split at h
                · -- c = lbracket: array
                  split at h
                  · exact absurd h (by simp)
                  · split at h
                    · -- empty array
                      simp only [Option.some.injEq, Prod.mk.injEq] at h
                      rw [← h.1]
                      rfl
                    · -- nonempty array
                      split at h
                      · rename_i p1 heq1
                        split at h
                        · rename_i p2 heq2
                          simp only [Option.some.injEq, Prod.mk.injEq] at h
                          rw [← h.1]
                          have hw1 := ih1 _ _ _ heq1
                          have hw2 := ih2 _ _ _ heq2
                          simp [wfJ, wfL, hw1, hw2]
                        · exact absurd h (by simp)
                      · exact absurd h (by simp)
                · split at h
                  · -- c = lbrace: object
                    split at h
                    · exact absurd h (by simp)
                    · split at h
                      · -- empty object
                        simp only [Option.some.injEq, Prod.mk.injEq] at h
                        rw [← h.1]
                        rfl
                      · split at h
                        · -- first member
                          split at h
                          · rename_i k1 rest3 heqk
                            split at h
                            · exact absurd h (by simp)
                            · split at h
                              · split at h
                                · rename_i v1 rest5 heqv
                                  split at h
                                  · rename_i kvs1 rest6 heqo
                                    simp only [Option.some.injEq, Prod.mk.injEq] at h
                                    rw [← h.1]
                                    have hwv := ih1 _ _ _ heqv
                                    have hacc1 : keysDistinctM
                                        (upsertM k1 v1 JsonMembers.nil) = true := by
                                      simp [upsertM, keysDistinctM, memKeyM]
                                    have hacc2 : wfM (upsertM k1 v1 JsonMembers.nil) =
                                        true := by
                                      simp [upsertM, wfM, hwv]
                                    obtain ⟨hd2, hw2⟩ := ih3 _ _ _ _ heqo hacc1 hacc2
                                    simp [wfJ, hd2, hw2]
                                  · exact absurd h (by simp)
                                · exact absurd h (by simp)
                              · exact absurd h (by simp)
                          · exact absurd h (by simp)
                        · exact absurd h (by simp)
                  · -- number
                    exact parseNumber_wf _ (v, rest) h
    · intro cs vs rest h
      simp only [parseArrRest] at h
      split at h
      · exact absurd h (by simp)
      · split at h
        · simp only [Option.some.injEq, Prod.mk.injEq] at h
          rw [← h.1]
          rfl
        · split at h
          · split at h
            · rename_i p1 heq1
              split at h
              · rename_i p2 heq2
                simp only [Option.some.injEq, Prod.mk.injEq] at h
                rw [← h.1]
                have hw1 := ih1 _ _ _ heq1
                have hw2 := ih2 _ _ _ heq2
                simp [wfL, hw1, hw2]
              · exact absurd h (by simp)
            · exact absurd h (by simp)
          · exact absurd h (by simp)
    · intro cs acc kvs rest h hd hw
      simp only [parseObjRest] at h
      split at h
      · exact absurd h (by simp)
      · split at h
        · simp only [Option.some.injEq, Prod.mk.injEq] at h
          rw [← h.1]
          exact ⟨hd, hw⟩
        · split at h
          · split at h
            · exact absurd h (by simp)
            · split at h
              · split at h
                · rename_i pk heqk
                  split at h
                  · exact absurd h (by simp)
                  · split at h
                    · split at h
                      · rename_i pv heqv
                        have hwv := ih1 _ _ _ heqv
                        exact ih3 _ _ _ _ h (upsertM_distinct _ _ _ hd)
                          (upsertM_wfM _ _ hwv _ hw)
                      · exact absurd h (by simp)
                    · exact absurd h (by simp)
                · exact absurd h (by simp)
              · exact absurd h (by simp)
          · exact absurd h (by simp)

/- ------------------------------------------------------------------ -/

/- JSON lemmas: serialized length dominates the parser fuel need       -/

/- ------------------------------------------------------------------ -/

mutual
theorem pneed_le_dumps : ∀ v : Json, pneed v ≤ (dumpsVal v).length
  | Json.null => by simp [pneed, dumpsVal]
  | Json.bool b => by cases b <;> simp [pneed, dumpsVal]
  | Json.num n => by
      obtain ⟨c, l, hd, _⟩ := intChars_head n
      rw [show dumpsVal (Json.num n) = intChars n from rfl, hd]
      simp [pneed]
  | Json.str s => by simp [pneed, dumpsVal]
  | Json.arr JsonList.nil => by simp [pneed, dumpsVal]
  | Json.arr (JsonList.cons v vs) => by
      have h1 := pneed_le_dumps v
      have h2 := pneed_le_arest vs
      simp only [pneed, dumpsVal, List.length_append, List.length_cons, List.length_nil]
      omega
  | Json.obj JsonMembers.nil => by simp [pneed, dumpsVal]
  | Json.obj (JsonMembers.cons k v kvs) => by
      have h1 := pneed_le_dumps v
      have h2 := pneed_le_orest kvs
      simp only [pneed, dumpsVal, List.length_append, List.length_cons, List.length_nil]
      omega

theorem pneed_le_arest : ∀ vs : JsonList, pneedL vs ≤ (dumpsArrRest vs).length + 1
  | JsonList.nil => by simp [pneedL, dumpsArrRest]
  | JsonList.cons v vs => by
      have h1 := pneed_le_dumps v
      have h2 := pneed_le_arest vs
      simp only [pneedL, dumpsArrRest, List.length_append, List.length_cons]
      omega

theorem pneed_le_orest : ∀ kvs : JsonMembers, pneedM kvs ≤ (dumpsObjRest kvs).length + 1
  | JsonMembers.nil => by simp [pneedM, dumpsObjRest]
  | JsonMembers.cons k v kvs => by
      have h1 := pneed_le_dumps v
      have h2 := pneed_le_orest kvs
      simp only [pneedM, dumpsObjRest, List.length_append, List.length_cons]
      omega
end

/- ------------------------------------------------------------------ -/

/- JSON lemmas: the serialized form contains no newline                -/

/- ------------------------------------------------------------------ -/

theorem digitChar_ne_newline (m : Nat) : Nat.digitChar m ≠ '\n' := by
  rcases Nat.lt_or_ge m 16 with h | h
  · interval_cases m <;> decide
  · have e : Nat.digitChar m = '*' := by
      unfold Nat.digitChar
      iterate 16 rw [if_neg (by omega)]
    rw [e]
    decide

theorem escapeChar_no_newline (c : Char) : ('\n' : Char) ∉ escapeChar c := by
  unfold escapeChar
  split_ifs with h1 h2 h3 h4 h5 h6 h7 h8
  · decide
  · decide
  · decide
  · decide
  · decide
  · decide
  · decide
  · intro hmem
    simp only [List.mem_cons, List.not_mem_nil, or_false] at hmem
    rcases hmem with h | h | h | h | h | h
    · exact absurd h (by decide)
    · exact absurd h (by decide)
    · exact absurd h (by decide)
    · exact absurd h (by decide)
    · exact digitChar_ne_newline _ h.symm
    · exact digitChar_ne_newline _ h.symm
  · intro hmem
    simp only [List.mem_singleton] at hmem
    exact h3 hmem.symm

theorem escapeList_no_newline (s : List Char) : ('\n' : Char) ∉ escapeList s := by
  induction s with
  | nil => simp [escapeList]
  | cons c s ih =>
    simp only [escapeList, List.mem_append]
    rintro (h | h)
    · exact escapeChar_no_newline c h
    · exact ih h

theorem natChars_no_newline (m : Nat) : ('\n' : Char) ∉ natChars m := by
  by_cases hm : m = 0
  · subst hm
    decide
  · obtain ⟨d, tl, hnat, _, _, _⟩ := natChars_pos m hm
    rw [hnat]
    intro hmem
    simp only [List.mem_cons, List.mem_map] at hmem
    rcases hmem with h | ⟨x, _, h⟩
    · exact digitChar_ne_newline d h.symm
    · exact digitChar_ne_newline x h

theorem intChars_no_newline (n : Int) : ('\n' : Char) ∉ intChars n := by
  unfold intChars
  split_ifs
  · intro hmem
    simp only [List.mem_cons] at hmem
    rcases hmem with h | h
    · exact absurd h (by decide)
    · exact natChars_no_newline _ h
  · exact natChars_no_newline _

mutual
theorem newline_notin_dumps : ∀ v : Json, ('\n' : Char) ∉ dumpsVal v
  | Json.null => by decide
  | Json.bool b => by cases b <;> decide
  | Json.num n => intChars_no_newline n
  | Json.str s => by
      rw [show dumpsVal (Json.str s) = '"' :: (escapeList s ++ ['"']) from rfl]
      intro hmem
      simp only [List.mem_cons, List.mem_append, List.mem_singleton] at hmem
      rcases hmem with h | h | h
      · exact absurd h (by decide)
      · exact escapeList_no_newline s h
      · exact absurd h (by decide)
  | Json.arr JsonList.nil => by decide
  | Json.arr (JsonList.cons v vs) => by
      have h1 := newline_notin_dumps v
      have h2 := newline_notin_arest vs
      rw [show dumpsVal (Json.arr (JsonList.cons v vs)) =
        '[' :: (dumpsVal v ++ dumpsArrRest vs ++ [']']) from by simp [dumpsVal]]
      intro hmem
      simp only [List.mem_cons, List.mem_append, List.mem_singleton] at hmem
      rcases hmem with h | (h | h) | h
      · exact absurd h (by decide)
      · exact h1 h
      · exact h2 h
      · exact absurd h (by decide)
  | Json.obj JsonMembers.nil => by decide
  | Json.obj (JsonMembers.cons k v kvs) => by
      have h1 := newline_notin_dumps v
      have h2 := newline_notin_orest kvs
      rw [show dumpsVal (Json.obj (JsonMembers.cons k v kvs)) =
        Char.ofNat 123 :: ('"' :: (escapeList k ++ ['"', ':', ' '] ++ dumpsVal v ++
          dumpsObjRest kvs ++ [Char.ofNat 125])) from by simp [dumpsVal]]
      intro hmem
      simp only [List.mem_cons, List.mem_append, List.mem_singleton] at hmem
      rcases hmem with h | h | (((h | h) | h) | h) | h
      · exact absurd h (by decide)
      · exact absurd h (by decide)
      · exact escapeList_no_newline k h
      · simp only [List.mem_cons, List.not_mem_nil, or_false] at h
        rcases h with h | h | h <;> exact absurd h (by decide)
      · exact h1 h
      · exact h2 h
      · exact absurd h (by decide)

theorem newline_notin_arest : ∀ vs : JsonList, ('\n' : Char) ∉ dumpsArrRest vs
  | JsonList.nil => by
      rw [show dumpsArrRest JsonList.nil = [] from by simp [dumpsArrRest]]
      simp
  | JsonList.cons v vs => by
      have h1 := newline_notin_dumps v
      have h2 := newline_notin_arest vs
      rw [show dumpsArrRest (JsonList.cons v vs) =
        ',' :: ' ' :: (dumpsVal v ++ dumpsArrRest vs) from by simp [dumpsArrRest]]
      intro hmem
      simp only [List.mem_cons, List.mem_append] at hmem
      rcases hmem with h | h | h | h
      · exact absurd h (by decide)
      · exact absurd h (by decide)
      · exact h1 h
      · exact h2 h

theorem newline_notin_orest : ∀ kvs : JsonMembers, ('\n' : Char) ∉ dumpsObjRest kvs
  | JsonMembers.nil => by
      rw [show dumpsObjRest JsonMembers.nil = [] from by simp [dumpsObjRest]]
      simp
  | JsonMembers.cons k v kvs => by
      have h1 := newline_notin_dumps v
      have h2 := newline_notin_orest kvs
      rw [show dumpsObjRest (JsonMembers.cons k v kvs) =
        ',' :: ' ' :: ('"' :: (escapeList k ++ ['"', ':', ' '] ++ dumpsVal v ++
          dumpsObjRest kvs)) from by simp [dumpsObjRest]]
      intro hmem
      simp only [List.mem_cons, List.mem_append] at hmem
      rcases hmem with h | h | h | ((h | h) | h) | h
      · exact absurd h (by decide)
      · exact absurd h (by decide)
      · exact absurd h (by decide)
      · exact escapeList_no_newline k h
      · simp only [List.mem_cons, List.not_mem_nil, or_false] at h
        rcases h with h | h | h <;> exact absurd h (by decide)
      · exact h1 h
      · exact h2 h
end

/- ------------------------------------------------------------------ -/

/- Theorems for claims C4 and C5                                       -/

/- ------------------------------------------------------------------ -/

theorem json_loads_some_wf (raw : List Char) (v : Json) (h : json_loads raw = some v) :
    wfJ v = true := by
  unfold json_loads at h
  split at h
  · rename_i v0 rest0 heq
    split at h
    · simp only [Option.some.injEq] at h
      rw [← h]
      exact (parse_wf (raw.length + 1)).1 raw v0 rest0 heq
    · exact absurd h (by simp)
  · exact absurd h (by simp)

theorem json_loads_dumps (v : Json) (hwf : wfJ v = true) :
    json_loads (dumpsVal v) = some v := by
  unfold json_loads
  have hlen : pneed v ≤ (dumpsVal v).length + 1 := by
    have := pneed_le_dumps v
    omega
  have h := (parse_dumps ((dumpsVal v).length + 1)).1 v [] hlen hwf (by rfl)
  rw [List.append_nil] at h
  rw [h]
  rfl

theorem dropWhile_head (p : Char → Bool) : ∀ (l : List Char) (c : Char),
    (List.dropWhile p l).head? = some c → p c = false := by
  intro l
  induction l with
  | nil =>
    intro c h
    exact absurd h (by simp [List.dropWhile])
  | cons a l ih =>
    intro c h
    rw [List.dropWhile_cons] at h
    split at h
    · exact ih c h
    · rename_i ha
      simp only [List.head?_cons, Option.some.injEq] at h
      rw [← h]
      exact Bool.of_not_eq_true ha

theorem pyRstrip_last (raw : List Char) (c : Char) (h : (pyRstrip raw).getLast? = some c) :
    isPySpace c = false := by
  unfold pyRstrip at h
  rw [List.getLast?_reverse] at h
  exact dropWhile_head _ _ c h

/-- Claim C4: a payload that parses as JSON is re-serialized: the written text
is the canonical serialization of the parsed value followed by exactly one
newline; the serialization contains no newline of its own (so the record is one
line with exactly one trailing newline), and parsing the written line back
yields exactly the same value (same keys and values; key order is in fact
preserved). Numbers are integers in this model, see the JSON section comment. -/

theorem write_message_json_roundtrip (raw : List Char) (v : Json)
    (h : json_loads raw = some v) :
    write_message_text raw = dumpsVal v ++ ['\n'] ∧
    json_loads (dumpsVal v) = some v ∧
    ('\n' : Char) ∉ dumpsVal v := by
  have hwf := json_loads_some_wf raw v h
  refine ⟨?_, json_loads_dumps v hwf, newline_notin_dumps v⟩
  unfold write_message_text
  rw [h]

/-- Witness for C4 on the payload [0]. -/

theorem write_message_json_roundtrip_witness :
    json_loads ['[', '0', ']'] =
      some (Json.arr (JsonList.cons (Json.num 0) JsonList.nil)) ∧
    (write_message_text ['[', '0', ']'] =
      dumpsVal (Json.arr (JsonList.cons (Json.num 0) JsonList.nil)) ++ ['\n'] ∧
     json_loads (dumpsVal (Json.arr (JsonList.cons (Json.num 0) JsonList.nil))) =
      some (Json.arr (JsonList.cons (Json.num 0) JsonList.nil)) ∧
     ('\n' : Char) ∉ dumpsVal (Json.arr (JsonList.cons (Json.num 0) JsonList.nil))) :=
  ⟨rfl, write_message_json_roundtrip ['[', '0', ']']
    (Json.arr (JsonList.cons (Json.num 0) JsonList.nil)) rfl⟩

/-- Claim C5: a payload that does not parse as JSON is written as exactly the
raw text with trailing whitespace stripped, followed by exactly one newline:
the stripped text never ends in whitespace (in particular not in a newline),
and the model is a total function, so such a message is never an error. -/

theorem write_message_non_json (raw : List Char) (h : json_loads raw = none) :
    write_message_text raw = pyRstrip raw ++ ['\n'] ∧
    (∀ c, (pyRstrip raw).getLast? = some c → isPySpace c = false) := by
  constructor
  · unfold write_message_text
    rw [h]
  · intro c hc
    exact pyRstrip_last raw c hc

/-- Witness for C5 on the payload "hi " (with a trailing space). -/

theorem write_message_non_json_witness :
    json_loads ['h', 'i', ' '] = none ∧
    write_message_text ['h', 'i', ' '] = pyRstrip ['h', 'i', ' '] ++ ['\n'] ∧
    pyRstrip ['h', 'i', ' '] = ['h', 'i'] :=
  ⟨rfl, (write_message_non_json ['h', 'i', ' '] rfl).1, rfl⟩
